import Mathlib

/-
  Verification development for the parallel SGD matrix-factorization engine
  (src/exp/apps/sgd/sgdAlamere.cpp).

  Shallow embedding conventions:
  * C++ doubles are modelled by exact rationals (ℚ); the one place a real
    exponent appears (PurdueLearnFN, pow(x, 1.5)) is modelled over ℝ.
  * The fixed-size array latent_vector[LATENT_VECTOR_SIZE] is modelled by a
    list of rationals; the per-index update loop becomes structural recursion
    over the list, so the latent dimension D is the list length.
  * Machine unsigned ints are modelled by ℕ.
  * The mutable node array of the graph is a list of nodes, updated by
    List.set; the immutable CSR adjacency is a list, per node, of
    (destination node id, rating) pairs in the order edges are stored.
  * Each scheduler's inner loops are translated into explicit state-passing
    functions.  A ghost log of (movie, user) pairs records each invocation of
    doGradientUpdate so that coverage and update-count properties can be
    stated; the log has no influence on the computation.
-/

set_option maxHeartbeats 1000000

namespace SgdAlamere

/-- Node from the source: the latent vector to be learned, the number of
updates made to this node (used by movie nodes), and edge_offset, the resume
position of an interrupted movie scan. -/
structure Node where
  latent_vector : List ℚ
  updates : ℕ
  edge_offset : ℕ
  deriving DecidableEq, Repr

instance : Inhabited Node := ⟨⟨[], 0, 0⟩⟩

/-- LATENT_VECTOR_SIZE = 20 from the source (the reference latent dimension). -/
def LATENT_VECTOR_SIZE : ℕ := 20

/-- MAX_MOVIE_UPDATES = 5: the number of outer rounds for the grid variants. -/
def MAX_MOVIE_UPDATES : ℕ := 5

/-- LEARNING_RATE = 0.001 (called GAMMA in the source comment). -/
def LEARNING_RATE : ℚ := 0.001

/-- DECAY_RATE = 0.9 (STEP_DEC). -/
def DECAY_RATE : ℚ := 0.9

/-- LAMBDA = 0.001, the regularization weight. -/
def LAMBDA : ℚ := 0.001

/-- BottouInit = 0.1. -/
def BottouInit : ℚ := 0.1

/-- vector_dot from the source: dp accumulates user_latent[i] * movie_latent[i]
over the common indices of the two vectors. -/
def vector_dot : List ℚ → List ℚ → ℚ
  | m :: ms, u :: us => u * m + vector_dot ms us
  | _, _ => 0

/-- The per-index gradient step loop of doGradientUpdate, generalized over the
regularization weight lam (the source fixes lam = LAMBDA).  At each index the
previous movie and user values are read first and both writes use those
pre-update values, exactly as in the source loop. -/
def gradStep (lam step err : ℚ) : List ℚ → List ℚ → List ℚ × List ℚ
  | m :: ms, u :: us =>
    let rest := gradStep lam step err ms us
    ((m + step * (err * u - lam * m)) :: rest.1, (u + step * (err * m - lam * u)) :: rest.2)
  | ms, us => (ms, us)

/-- doGradientUpdate, generalized over the regularization weight: compute
cur_error = rating - dot(movie, user), then take one gradient step on both
latent vectors.  Only the latent vectors change; updates and edge_offset of
both nodes are carried over untouched. -/
def doGradientUpdateL (lam : ℚ) (movie_data user_data : Node) (edge_rating : ℕ)
    (step_size : ℚ) : Node × Node :=
  let cur_error : ℚ := (edge_rating : ℚ) - vector_dot movie_data.latent_vector user_data.latent_vector
  let p := gradStep lam step_size cur_error movie_data.latent_vector user_data.latent_vector
  ({ movie_data with latent_vector := p.1 }, { user_data with latent_vector := p.2 })

/-- doGradientUpdate from the source, with the source's fixed LAMBDA. -/
def doGradientUpdate (movie_data user_data : Node) (edge_rating : ℕ)
    (step_size : ℚ) : Node × Node :=
  doGradientUpdateL LAMBDA movie_data user_data edge_rating step_size

/-- IntelLearnFN::step_size: LEARNING_RATE * pow(DECAY_RATE, round). -/
def IntelLearnFN_step_size (round : ℕ) : ℚ :=
  LEARNING_RATE * DECAY_RATE ^ round

/-- BottouLearnFN::step_size: BottouInit / (1 + BottouInit*LAMBDA*round). -/
def BottouLearnFN_step_size (round : ℕ) : ℚ :=
  BottouInit / (1 + BottouInit * LAMBDA * (round : ℚ))

/-- InvLearnFN::step_size: 1 / (round + 1). -/
def InvLearnFN_step_size (round : ℕ) : ℚ :=
  1 / ((round : ℚ) + 1)

/-- PurdueLearnFN::step_size: LEARNING_RATE * 1.5 / (1 + DECAY_RATE * pow(round+1, 1.5)).
The real exponent 1.5 forces this variant to be modelled over ℝ. -/
noncomputable def PurdueLearnFN_step_size (round : ℕ) : ℝ :=
  (LEARNING_RATE : ℝ) * 1.5 / (1 + (DECAY_RATE : ℝ) * ((round : ℝ) + 1) ^ (1.5 : ℝ))

/-- genRand from the source: 2.0 * (rand() / RAND_MAX) - 1.0, where rand()
returns an integer in [0, RAND_MAX].  Parametrized by the draw and by the
platform constant RAND_MAX. -/
def genRand (RAND_MAX rand : ℕ) : ℚ :=
  2 * ((rand : ℚ) / (RAND_MAX : ℚ)) - 1

/-- One node as set up by initializeGraphData: updates = 0, edge_offset = 0,
and D latent components drawn from the pseudo-random stream, the node's block
of the stream starting at index base. -/
def initNodeData (D : ℕ) (rands : ℕ → ℕ) (RAND_MAX base : ℕ) : Node :=
  { latent_vector := (List.range D).map (fun j => genRand RAND_MAX (rands (base + j)))
    updates := 0
    edge_offset := 0 }

/-- The node array produced by initializeGraphData: node i consumes stream
positions i*D .. i*D+D-1, in graph iteration order. -/
def initGraphData (D : ℕ) (rands : ℕ → ℕ) (RAND_MAX numNodes : ℕ) : List Node :=
  (List.range numNodes).map (fun i => initNodeData D rands RAND_MAX (i * D))

/-- A call of doGradientUpdate on the node array through two node references,
as every scheduler performs it: read both nodes, update them in place.  The
counter and cursor increments are done by the scheduler loops, not here. -/
def applyGradientAt (nodes : List Node) (m u : ℕ) (edge_rating : ℕ)
    (step_size : ℚ) : List Node :=
  let p := doGradientUpdate (nodes.getD m default) (nodes.getD u default) edge_rating step_size
  (nodes.set m p.1).set u p.2

/-- Immutable bipartite rating graph: node ids 0..numMovies-1 are movies,
numMovies..numMovies+numUsers-1 are users; adj lists, for every node id, its
outgoing edges as (destination node id, rating) pairs in storage order.  Only
movie nodes have edges. -/
structure SGraph where
  numMovies : ℕ
  numUsers : ℕ
  adj : List (List (ℕ × ℕ))
  deriving DecidableEq, Repr

/-- The adjacency list of node m (empty beyond the node array). -/
def adjOf (g : SGraph) (m : ℕ) : List (ℕ × ℕ) := g.adj.getD m []

/-- Bipartiteness of the stored edges: every destination is a user node,
i.e. its id is at least numMovies.  Stated with bounded quantifiers so it is
decidable on concrete graphs. -/
def Bip (g : SGraph) : Prop :=
  ∀ m, m < g.adj.length → ∀ e ∈ g.adj.getD m [], g.numMovies ≤ e.1

instance (g : SGraph) : Decidable (Bip g) := by
  unfold Bip; infer_instance

/-- Mutable scheduler state: the node array, plus a ghost log that records one
(movie, user) entry per doGradientUpdate call, newest first. -/
structure SchedState where
  nodes : List Node
  glog : List (ℕ × ℕ)
  deriving DecidableEq, Repr

/-- Read node i (default node beyond the array, matching no-op writes). -/
def getNode (st : SchedState) (i : ℕ) : Node := st.nodes.getD i default

/-- Write node i in place. -/
def setNode (st : SchedState) (i : ℕ) (nd : Node) : SchedState :=
  { st with nodes := st.nodes.set i nd }

/-- Number of logged gradient updates whose movie argument is m. -/
def movieCount (l : List (ℕ × ℕ)) (m : ℕ) : ℕ :=
  (l.filter (fun e => e.1 == m)).length

/-- Relation between two scheduler states recording how update counters move
together with the ghost log: every movie's updates field grows by exactly the
number of newly logged gradient updates with that movie as the movie
argument, user nodes' updates fields never change, and the node array keeps
its length.  It is reflexive and transitive, and every scheduler operation of
the grid and march variants preserves it. -/
def updatesLogInv (g : SGraph) (st st' : SchedState) : Prop :=
  st'.nodes.length = st.nodes.length ∧
  (∀ m, m < g.numMovies →
    (getNode st' m).updates + movieCount st.glog m =
      (getNode st m).updates + movieCount st'.glog m) ∧
  (∀ u, g.numMovies ≤ u → (getNode st' u).updates = (getNode st u).updates)

/-- One consumed edge in the grid/march schedulers: doGradientUpdate on the
(movie, user) pair, then ++movie_data.updates and ++movie_data.edge_offset
(the latter is the for-loop increment of the source). -/
def consumeEdge (step_size : ℚ) (m dst rating : ℕ) (st : SchedState) : SchedState :=
  let p := doGradientUpdate (getNode st m) (getNode st dst) rating step_size
  let mv := { p.1 with updates := p.1.updates + 1, edge_offset := p.1.edge_offset + 1 }
  { nodes := (st.nodes.set m mv).set dst p.2, glog := (m, dst) :: st.glog }

/-- One edge in sgd_node_movie: doGradientUpdate only; neither the updates
counter nor the cursor is touched by that scheduler. -/
def consumeEdgeNoCount (step_size : ℚ) (m dst rating : ℕ) (st : SchedState) : SchedState :=
  let p := doGradientUpdate (getNode st m) (getNode st dst) rating step_size
  { nodes := (st.nodes.set m p.1).set dst p.2, glog := (m, dst) :: st.glog }

/-- The shared inner edge loop of the grid/march schedulers, run on the edges
of movie m that remain from its cursor: stop at the first destination
exceeding bound, otherwise consume the edge and continue. -/
def edgeLoop (step_size : ℚ) (bound m : ℕ) : List (ℕ × ℕ) → SchedState → SchedState
  | [], st => st
  | e :: rest, st =>
    if bound < e.1 then st
    else edgeLoop step_size bound m rest (consumeEdge step_size m e.1 e.2 st)

/-- Scan one movie: resume from its edge_offset and run the edge loop. -/
def processMovie (g : SGraph) (step_size : ℚ) (bound m : ℕ) (st : SchedState) : SchedState :=
  edgeLoop step_size bound m ((adjOf g m).drop (getNode st m).edge_offset) st

/-- Reset a movie's cursor to 0 (start back at the first edge). -/
def resetOffset (m : ℕ) (st : SchedState) : SchedState :=
  setNode st m { getNode st m with edge_offset := 0 }

/-- Per-movie body of the grid/march movie loops: scan the movie, and if this
pass looked at the last user (the caller passes reset = true exactly when its
current slice end equals NUM_USER_NODES) reset the cursor. -/
def perMovie (g : SGraph) (step_size : ℚ) (bound : ℕ) (reset : Bool) (m : ℕ)
    (st : SchedState) : SchedState :=
  let st1 := processMovie g step_size bound m st
  if reset then resetOffset m st1 else st1

/-- The movie loop shared by sgd_block, sgd_block_users, sgd_block_users_movies
and sgd_march: one pass over the given movie ids. -/
def moviesPass (g : SGraph) (step_size : ℚ) (bound : ℕ) (reset : Bool)
    (ms : List ℕ) (st : SchedState) : SchedState :=
  ms.foldl (fun st m => perMovie g step_size bound reset m st) st

/-- ThreadWorkItem from the source (debug fields dropped). -/
structure ThreadWorkItem where
  movieRangeStart : ℕ
  movieRangeEnd : ℕ
  userRangeStart : ℕ
  userRangeEnd : ℕ
  usersPerBlockSlice : ℕ
  moviesPerBlockSlice : ℕ
  sliceStart : ℕ
  numSlices : ℕ
  id : ℕ
  deriving DecidableEq, Repr

/-- The ids of the movies in a half-open range. -/
def movieRangeList (s e : ℕ) : List ℕ := List.range' s (e - s)

/-- sgd_block::operator(): one pass over the item's movie range.  Note that the
source compares the destination node id directly against the item's
userRangeEnd, an index into the users only (no + NUM_MOVIE_NODES bias), and
resets cursors when userRangeEnd equals NUM_USER_NODES. -/
def sgd_block_item (g : SGraph) (step_size : ℚ) (wi : ThreadWorkItem)
    (st : SchedState) : SchedState :=
  moviesPass g step_size wi.userRangeEnd (wi.userRangeEnd == g.numUsers)
    (movieRangeList wi.movieRangeStart wi.movieRangeEnd) st

/-- The user-slice while-loop of sgd_block_users::operator(), as structural
recursion on an explicit iteration bound (fuel): advance the slice end by
usersPerBlockSlice (capped at userRangeEnd) and run the movie loop with the
destination bound biased by NUM_MOVIE_NODES, until the slice end reaches
userRangeEnd.  Each iteration moves the slice end by at least one user when
0 < ups, so uEnd - cur iterations always suffice; the wrapper sliceLoopUsers
supplies that fuel.  The source loop does not terminate when ups = 0 and the
range is nonempty; the model exits instead, and every theorem about it
assumes 0 < ups. -/
def sliceLoopUsersAux (g : SGraph) (step_size : ℚ) (ups uEnd : ℕ) (ms : List ℕ) :
    ℕ → ℕ → SchedState → SchedState
  | 0, _, st => st
  | fuel + 1, cur, st =>
    if cur < uEnd ∧ 0 < ups then
      sliceLoopUsersAux g step_size ups uEnd ms fuel (min (cur + ups) uEnd)
        (moviesPass g step_size (min (cur + ups) uEnd + g.numMovies)
          (min (cur + ups) uEnd == g.numUsers) ms st)
    else st

/-- The user-slice while-loop of sgd_block_users::operator() started at slice
end cur. -/
def sliceLoopUsers (g : SGraph) (step_size : ℚ) (ups uEnd : ℕ) (ms : List ℕ)
    (cur : ℕ) (st : SchedState) : SchedState :=
  sliceLoopUsersAux g step_size ups uEnd ms (uEnd - cur) cur st

/-- sgd_block_users::operator(). -/
def sgd_block_users_item (g : SGraph) (step_size : ℚ) (wi : ThreadWorkItem)
    (st : SchedState) : SchedState :=
  sliceLoopUsers g step_size wi.usersPerBlockSlice wi.userRangeEnd
    (movieRangeList wi.movieRangeStart wi.movieRangeEnd) wi.userRangeStart st

/-- The movie-slice while-loop of sgd_block_users_movies::operator(): the
movie range is consumed in chunks of moviesPerBlockSlice.  Structured with
fuel exactly like sliceLoopUsersAux. -/
def movieSliceLoopAux (g : SGraph) (step_size : ℚ) (bound : ℕ) (reset : Bool)
    (mps mEnd : ℕ) : ℕ → ℕ → SchedState → SchedState
  | 0, _, st => st
  | fuel + 1, cur, st =>
    if cur < mEnd ∧ 0 < mps then
      movieSliceLoopAux g step_size bound reset mps mEnd fuel (min (cur + mps) mEnd)
        (moviesPass g step_size bound reset (movieRangeList cur (min (cur + mps) mEnd)) st)
    else st

/-- The movie-slice while-loop started at movie slice end cur. -/
def movieSliceLoop (g : SGraph) (step_size : ℚ) (bound : ℕ) (reset : Bool)
    (mps mEnd cur : ℕ) (st : SchedState) : SchedState :=
  movieSliceLoopAux g step_size bound reset mps mEnd (mEnd - cur) cur st

/-- The user-slice while-loop of sgd_block_users_movies::operator(), with
fuel as in sliceLoopUsersAux. -/
def sliceLoopUsersMoviesAux (g : SGraph) (step_size : ℚ) (ups mps uEnd mStart mEnd : ℕ) :
    ℕ → ℕ → SchedState → SchedState
  | 0, _, st => st
  | fuel + 1, cur, st =>
    if cur < uEnd ∧ 0 < ups then
      sliceLoopUsersMoviesAux g step_size ups mps uEnd mStart mEnd fuel (min (cur + ups) uEnd)
        (movieSliceLoop g step_size (min (cur + ups) uEnd + g.numMovies)
          (min (cur + ups) uEnd == g.numUsers) mps mEnd mStart st)
    else st

/-- The user-slice while-loop of sgd_block_users_movies::operator(). -/
def sliceLoopUsersMovies (g : SGraph) (step_size : ℚ) (ups mps uEnd mStart mEnd : ℕ)
    (cur : ℕ) (st : SchedState) : SchedState :=
  sliceLoopUsersMoviesAux g step_size ups mps uEnd mStart mEnd (uEnd - cur) cur st

/-- sgd_block_users_movies::operator() (the blockAndSliceBoth variant). -/
def sgd_block_users_movies_item (g : SGraph) (step_size : ℚ) (wi : ThreadWorkItem)
    (st : SchedState) : SchedState :=
  sliceLoopUsersMovies g step_size wi.usersPerBlockSlice wi.moviesPerBlockSlice
    wi.userRangeEnd wi.movieRangeStart wi.movieRangeEnd wi.userRangeStart st

/-- userIdToUserNode from the source: userId + NUM_MOVIE_NODES + 1. -/
def userIdToUserNode (numMovies userId : ℕ) : ℕ := userId + numMovies + 1

/-- Increment a movie's cursor (the for-loop increment of advance_edge_iterators). -/
def bumpOffset (m : ℕ) (st : SchedState) : SchedState :=
  setNode st m { getNode st m with edge_offset := (getNode st m).edge_offset + 1 }

/-- The inner loop of advance_edge_iterators: walk the remaining edges of a
movie, bumping its cursor, and stop at the first destination exceeding
userIdToUserNode(userRangeStart). -/
def advanceLoop (bound m : ℕ) : List (ℕ × ℕ) → SchedState → SchedState
  | [], st => st
  | e :: rest, st =>
    if bound < e.1 then st
    else advanceLoop bound m rest (bumpOffset m st)

/-- advance_edge_iterators for one movie. -/
def advanceMovie (g : SGraph) (bound m : ℕ) (st : SchedState) : SchedState :=
  advanceLoop bound m ((adjOf g m).drop (getNode st m).edge_offset) st

/-- advance_edge_iterators::operator(): all movies of the item's range. -/
def advance_edge_iterators_item (g : SGraph) (wi : ThreadWorkItem)
    (st : SchedState) : SchedState :=
  (movieRangeList wi.movieRangeStart wi.movieRangeEnd).foldl
    (fun st m => advanceMovie g (userIdToUserNode g.numMovies wi.userRangeStart) m st) st

/-- moviesPerThread = NUM_MOVIE_NODES / numWorkItems. -/
def moviesPerThreadOf (g : SGraph) (W : ℕ) : ℕ := g.numMovies / W

/-- usersPerThread = NUM_USER_NODES / numWorkItems. -/
def usersPerThreadOf (g : SGraph) (W : ℕ) : ℕ := g.numUsers / W

/-- The initial work item of worker i built by runBlockSlices: the diagonal
block; the last worker absorbs the remainders. -/
def initWorkItem (g : SGraph) (W ups mps i : ℕ) : ThreadWorkItem :=
  { movieRangeStart := moviesPerThreadOf g W * i
    movieRangeEnd :=
      if i = W - 1 then g.numMovies
      else moviesPerThreadOf g W * i + moviesPerThreadOf g W
    userRangeStart := usersPerThreadOf g W * i
    userRangeEnd := if i = W - 1 then g.numUsers else (i + 1) * usersPerThreadOf g W
    usersPerBlockSlice := ups
    moviesPerBlockSlice := mps
    sliceStart := 0
    numSlices := 0
    id := i }

/-- The work-item array of runBlockSlices. -/
def initWorkItems (g : SGraph) (W ups mps : ℕ) : List ThreadWorkItem :=
  (List.range W).map (initWorkItem g W ups mps)

/-- userRangeStartPoints, stored before the rotation loop. -/
def userRangeStartPoints (g : SGraph) (W : ℕ) : List ℕ :=
  (List.range W).map (fun i => usersPerThreadOf g W * i)

/-- userRangeEndPoints, stored before the rotation loop. -/
def userRangeEndPoints (g : SGraph) (W : ℕ) : List ℕ :=
  (List.range W).map (fun i => if i = W - 1 then g.numUsers else (i + 1) * usersPerThreadOf g W)

/-- The rotation after sub-step j of runBlockSlices: worker k moves to
column (j+1+k) mod W of the stored range points. -/
def rotateWI (g : SGraph) (W j : ℕ) (wi : ThreadWorkItem) : ThreadWorkItem :=
  { wi with
    userRangeStart := (userRangeStartPoints g W).getD ((j + 1 + wi.id) % W) 0
    userRangeEnd := (userRangeEndPoints g W).getD ((j + 1 + wi.id) % W) 0 }

/-- Galois::do_all over the work items, linearized in array order (the
work items' movie ranges are disjoint). -/
def doAllItems (f : ThreadWorkItem → SchedState → SchedState)
    (wis : List ThreadWorkItem) (st : SchedState) : SchedState :=
  wis.foldl (fun st wi => f wi st) st

/-- One sub-step j of a runBlockSlices round with the sgd_block body, followed
by the rotation of every item. -/
def blockSubstepRotate (g : SGraph) (step_size : ℚ) (W : ℕ)
    (p : List ThreadWorkItem × SchedState) (j : ℕ) : List ThreadWorkItem × SchedState :=
  (p.1.map (rotateWI g W j), doAllItems (sgd_block_item g step_size) p.1 p.2)

/-- One round (W sub-steps with rotations) of runBlockSlices with sgd_block. -/
def blockRound (g : SGraph) (step_size : ℚ) (W : ℕ)
    (p : List ThreadWorkItem × SchedState) : List ThreadWorkItem × SchedState :=
  (List.range W).foldl (blockSubstepRotate g step_size W) p

/-- runBlockSlices<sgd_block>: build the work items, pre-advance every movie's
cursor, then run MAX_MOVIE_UPDATES rounds, round upd using step size lf upd. -/
def runBlockSlicesBlock (g : SGraph) (W ups mps : ℕ) (lf : ℕ → ℚ)
    (st0 : SchedState) : List ThreadWorkItem × SchedState :=
  let wis := initWorkItems g W ups mps
  let st1 := doAllItems (advance_edge_iterators_item g) wis st0
  (List.range MAX_MOVIE_UPDATES).foldl (fun p upd => blockRound g (lf upd) W p) (wis, st1)

/-- The user column owned by worker k during sub-step j: the rotation visits
column (j + k) mod W. -/
def colOf (W k j : ℕ) : ℕ := (j + k) % W

/-- Start of user column c. -/
def colStart (g : SGraph) (W c : ℕ) : ℕ := usersPerThreadOf g W * c

/-- End of user column c (the last column runs to NUM_USER_NODES). -/
def colEnd (g : SGraph) (W c : ℕ) : ℕ :=
  if c = W - 1 then g.numUsers else (c + 1) * usersPerThreadOf g W

/-- The movie row owned by worker k (fixed for the whole run). -/
def workerMovies (g : SGraph) (W k : ℕ) : List ℕ :=
  movieRangeList (moviesPerThreadOf g W * k)
    (if k = W - 1 then g.numMovies else moviesPerThreadOf g W * k + moviesPerThreadOf g W)

/-- Sub-step j of worker k in a blockAndSliceUsers round: its movie row
against user column (j + k) mod W.  Workers' movie rows are disjoint and, per
sub-step, so are their user columns, so the per-worker view determines the
evolution of the worker's own movies. -/
def workerSubstepUsers (g : SGraph) (step_size : ℚ) (ups W k j : ℕ)
    (st : SchedState) : SchedState :=
  sliceLoopUsers g step_size ups (colEnd g W (colOf W k j)) (workerMovies g W k)
    (colStart g W (colOf W k j)) st

/-- The state seen by worker k after its first j sub-steps of one
blockAndSliceUsers round. -/
def workerStateUsers (g : SGraph) (step_size : ℚ) (ups W k : ℕ)
    (st0 : SchedState) : ℕ → SchedState
  | 0 => st0
  | j + 1 => workerSubstepUsers g step_size ups W k j (workerStateUsers g step_size ups W k st0 j)

/-- The work item held by worker k during sub-step j of a runBlockSlices
round: its fixed movie row and the user column (j + k) mod W produced by the
rotation. -/
def workerWI (g : SGraph) (W ups mps k j : ℕ) : ThreadWorkItem :=
  { movieRangeStart := moviesPerThreadOf g W * k
    movieRangeEnd :=
      if k = W - 1 then g.numMovies
      else moviesPerThreadOf g W * k + moviesPerThreadOf g W
    userRangeStart := colStart g W (colOf W k j)
    userRangeEnd := colEnd g W (colOf W k j)
    usersPerBlockSlice := ups
    moviesPerBlockSlice := mps
    sliceStart := 0
    numSlices := 0
    id := k }

/-- Sub-step j of worker k in a block (sgd_block) round. -/
def workerSubstepBlock (g : SGraph) (step_size : ℚ) (ups mps W k j : ℕ)
    (st : SchedState) : SchedState :=
  sgd_block_item g step_size (workerWI g W ups mps k j) st

/-- The state seen by worker k after its first j sub-steps of one block
round. -/
def workerStateBlock (g : SGraph) (step_size : ℚ) (ups mps W k : ℕ)
    (st0 : SchedState) : ℕ → SchedState
  | 0 => st0
  | j + 1 =>
    workerSubstepBlock g step_size ups mps W k j
      (workerStateBlock g step_size ups mps W k st0 j)

/-- Sub-step j of worker k in a blockAndSliceBoth (sgd_block_users_movies)
round. -/
def workerSubstepUsersMovies (g : SGraph) (step_size : ℚ) (ups mps W k j : ℕ)
    (st : SchedState) : SchedState :=
  sgd_block_users_movies_item g step_size (workerWI g W ups mps k j) st

/-- The state seen by worker k after its first j sub-steps of one
blockAndSliceBoth round. -/
def workerStateUsersMovies (g : SGraph) (step_size : ℚ) (ups mps W k : ℕ)
    (st0 : SchedState) : ℕ → SchedState
  | 0 => st0
  | j + 1 =>
    workerSubstepUsersMovies g step_size ups mps W k j
      (workerStateUsersMovies g step_size ups mps W k st0 j)

/-- Per-worker mutable state of sgd_march::operator(): the shared node state
plus currentBlockSliceEnd, currentSliceId and the sliceUpdates counter; iters
is a ghost count of executed loop iterations. -/
structure MarchState where
  sched : SchedState
  currentBlockSliceEnd : ℕ
  currentSliceId : ℕ
  sliceUpdates : ℕ
  iters : ℕ
  deriving DecidableEq, Repr

/-- One iteration of the sgd_march while-loop: advance the slice end (capped
at userRangeEnd), process the movie row against it, bump the slice id and the
counter, and wrap both the slice id and the slice end to 0 when the end of the
user range is reached.  Lock acquisition only orders concurrent workers and
has no effect on the per-worker computation. -/
def sgd_march_body (g : SGraph) (step_size : ℚ) (ups uEnd : ℕ) (ms : List ℕ)
    (s : MarchState) : MarchState :=
  let newEnd := min (s.currentBlockSliceEnd + ups) uEnd
  { sched := moviesPass g step_size (newEnd + g.numMovies) (newEnd == g.numUsers) ms s.sched
    currentBlockSliceEnd := if newEnd = uEnd then 0 else newEnd
    currentSliceId := if newEnd = uEnd then 0 else s.currentSliceId + 1
    sliceUpdates := s.sliceUpdates + 1
    iters := s.iters + 1 }

/-- The sgd_march while-loop as structural recursion on fuel: run iterations
while sliceUpdates < bound.  Since every iteration increments sliceUpdates by
exactly one, bound - sliceUpdates iterations always suffice; the wrapper
sgd_march_loop supplies that fuel. -/
def sgd_march_loopAux (g : SGraph) (step_size : ℚ) (ups uEnd : ℕ) (ms : List ℕ)
    (bound : ℕ) : ℕ → MarchState → MarchState
  | 0, s => s
  | fuel + 1, s =>
    if s.sliceUpdates < bound then
      sgd_march_loopAux g step_size ups uEnd ms bound fuel (sgd_march_body g step_size ups uEnd ms s)
    else s

/-- The sgd_march while-loop: run iterations while sliceUpdates < bound. -/
def sgd_march_loop (g : SGraph) (step_size : ℚ) (ups uEnd : ℕ) (ms : List ℕ)
    (bound : ℕ) (s : MarchState) : MarchState :=
  sgd_march_loopAux g step_size ups uEnd ms bound (bound - s.sliceUpdates) s

/-- numSlices = NUM_USER_NODES / usersPerBlockSlice from runSliceMarch. -/
def numSlicesOf (g : SGraph) (ups : ℕ) : ℕ := g.numUsers / ups

/-- The work item built by runSliceMarch for worker k. -/
def marchWorkItem (g : SGraph) (W ups k : ℕ) : ThreadWorkItem :=
  { movieRangeStart := moviesPerThreadOf g W * k
    movieRangeEnd :=
      if k = W - 1 then g.numMovies
      else moviesPerThreadOf g W * k + moviesPerThreadOf g W
    userRangeStart := usersPerThreadOf g W * k
    userRangeEnd := g.numUsers
    usersPerBlockSlice := ups
    moviesPerBlockSlice := 0
    sliceStart := numSlicesOf g ups / W * k
    numSlices := numSlicesOf g ups
    id := k }

/-- Worker k of the sliceMarch variant: the while-loop started from the
runSliceMarch work item, bounded by MAX_MOVIE_UPDATES * numSlices. -/
def sgd_march_worker (g : SGraph) (step_size : ℚ) (ups W k : ℕ)
    (st : SchedState) : MarchState :=
  let wi := marchWorkItem g W ups k
  sgd_march_loop g step_size ups wi.userRangeEnd
    (movieRangeList wi.movieRangeStart wi.movieRangeEnd)
    (MAX_MOVIE_UPDATES * wi.numSlices)
    { sched := st
      currentBlockSliceEnd := wi.userRangeStart
      currentSliceId := wi.sliceStart
      sliceUpdates := 0
      iters := 0 }

/-- sgd_node_movie::operator(): apply doGradientUpdate to every outgoing edge
of the movie, from edge_begin (not from the cursor); no counter is touched. -/
def sgd_node_movie_item (g : SGraph) (step_size : ℚ) (m : ℕ)
    (st : SchedState) : SchedState :=
  (adjOf g m).foldl (fun st e => consumeEdgeNoCount step_size m e.1 e.2 st) st

/-- The Movies work list of sgd_node_movie::go: every node with at least one
outgoing edge, in node order. -/
def moviesWithEdges (g : SGraph) : List ℕ :=
  (List.range g.adj.length).filter (fun i => !(g.adj.getD i []).isEmpty)

/-- One round of sgd_node_movie::go. -/
def sgd_node_movie_round (g : SGraph) (step_size : ℚ) (st : SchedState) : SchedState :=
  (moviesWithEdges g).foldl (fun st m => sgd_node_movie_item g step_size m st) st

/-- sgd_node_movie::go: 10 rounds, round i using step size lf i. -/
def sgd_node_movie_go (g : SGraph) (lf : ℕ → ℚ) (st : SchedState) : SchedState :=
  (List.range 10).foldl (fun st i => sgd_node_movie_round g (lf i) st) st

/-- One execution of sgd_edge_movie::operator() on a movie work unit: if the
movie has no edges, return; otherwise advance to the edge at the movie's
edge_offset, apply doGradientUpdate to it (no updates counter is touched by
this scheduler either), increment edge_offset, and either reset the cursor to
0 when the adjacency list is exhausted or re-push the movie (the returned
Bool is the cnx.push decision). -/
def sgd_edge_movie_item (g : SGraph) (step_size : ℚ) (m : ℕ)
    (st : SchedState) : SchedState × Bool :=
  let es := adjOf g m
  if es.isEmpty then (st, false)
  else
    let off := (getNode st m).edge_offset
    let e := es.getD off (0, 0)
    let st1 := bumpOffset m (consumeEdgeNoCount step_size m e.1 e.2 st)
    if off + 1 = es.length then (resetOffset m st1, false)
    else (st1, true)

/-- An execution of the edgeMovie variant: the Galois worklist runs one
sgd_edge_movie work unit at a time, in an order chosen by the scheduler
(initial movies, re-pushed movies, and the per-round shuffles all produce
some such order).  The list sched is that sequence of work-unit executions,
so every interleaving and any number of rounds is an instance. -/
def sgd_edge_movie_run (g : SGraph) (step_size : ℚ) (sched : List ℕ)
    (st : SchedState) : SchedState :=
  sched.foldl (fun st m => (sgd_edge_movie_item g step_size m st).1) st

/-- Cursor position after CursorAdvancer as the spec describes it (advance
over the leading edges whose destination is at most userRangeStart +
NUM_MOVIE_NODES).  This definition follows the spec's words, for comparison
with the source's advanceMovie, which uses userIdToUserNode and therefore the
bound userRangeStart + NUM_MOVIE_NODES + 1. -/
def specAdvanceOffset (g : SGraph) (uStart m : ℕ) : ℕ :=
  ((adjOf g m).takeWhile (fun e => decide (e.1 ≤ uStart + g.numMovies))).length

/-- Example graph for the block variant: 2 movies (nodes 0, 1), 2 users
(nodes 2, 3), edges 0→2 rating 1 and 1→3 rating 2.  Latent vectors are empty
so that the numeric kernel is trivial; only scheduling state matters. -/
def bgG : SGraph := ⟨2, 2, [[(2, 1)], [(3, 2)], [], []]⟩

/-- Fresh scheduler state for bgG. -/
def bgSt0 : SchedState := ⟨List.replicate 4 default, []⟩

/-- Example graph for the cursor advancer: 1 movie (node 0), 2 users
(nodes 1, 2), a single edge 0→2 rating 4. -/
def c3G : SGraph := ⟨1, 2, [[(2, 4)], [], []]⟩

/-- Fresh scheduler state for c3G. -/
def c3St0 : SchedState := ⟨List.replicate 3 default, []⟩

/-- Example graph for cursor evolution in a grid round: 2 movies (nodes 0, 1),
4 users (nodes 2..5); movie 1 rates every user. -/
def c4G : SGraph := ⟨2, 4, [[(2, 1)], [(2, 1), (3, 2), (4, 3), (5, 4)], [], [], [], []]⟩

/-- Fresh scheduler state for c4G. -/
def c4St0 : SchedState := ⟨List.replicate 6 default, []⟩

/-- c4G state after the one-time advance_edge_iterators pass with W = 2 and
usersPerBlockSlice = 2, as runBlockSlices performs it before round 0. -/
def c4StAdv : SchedState :=
  doAllItems (advance_edge_iterators_item c4G) (initWorkItems c4G 2 2 512) c4St0

/-- Example graph for the nodeMovie variant: one movie (node 0), one user
(node 1), one edge with rating 3. -/
def nmG : SGraph := ⟨1, 1, [[(1, 3)], []]⟩

/-- Fresh scheduler state for nmG. -/
def nmSt0 : SchedState := ⟨List.replicate 2 default, []⟩

/-! ## Helper lemmas -/

theorem lem_getD_set_ne {α : Type _} (l : List α) {i j : ℕ} (a d : α) (h : i ≠ j) :
    (l.set i a).getD j d = l.getD j d := by
  simp [List.getD_eq_getElem?_getD, List.getElem?_set_ne h]

theorem lem_getD_set_self {α : Type _} (l : List α) {i : ℕ} (a d : α) (h : i < l.length) :
    (l.set i a).getD i d = a := by
  simp [List.getD_eq_getElem?_getD, List.getElem?_set_eq_of_lt a h]

theorem lem_getNode_setNode_ne (st : SchedState) {i j : ℕ} (nd : Node) (h : i ≠ j) :
    getNode (setNode st i nd) j = getNode st j := by
  unfold getNode setNode
  exact lem_getD_set_ne st.nodes nd default h

theorem lem_gradStep_getD (lam step err : ℚ) :
    ∀ (ms us : List ℚ) (i : ℕ), i < ms.length → i < us.length →
      (gradStep lam step err ms us).1.getD i 0 =
        ms.getD i 0 + step * (err * us.getD i 0 - lam * ms.getD i 0) ∧
      (gradStep lam step err ms us).2.getD i 0 =
        us.getD i 0 + step * (err * ms.getD i 0 - lam * us.getD i 0) := by
  intro ms
  induction ms with
  | nil => intro us i h1 _; simp at h1
  | cons m ms ih =>
    intro us i h1 h2
    cases us with
    | nil => simp at h2
    | cons u us =>
      cases i with
      | zero => simp [gradStep]
      | succ n =>
        simp only [gradStep, List.getD_cons_succ]
        exact ih us n (by simpa using h1) (by simpa using h2)

theorem lem_gradStep_err_zero (lam step : ℚ) :
    ∀ (ms us : List ℚ), ms.length = us.length → ∀ i : ℕ,
      (gradStep lam step 0 ms us).1.getD i 0 = (1 - step * lam) * ms.getD i 0 ∧
      (gradStep lam step 0 ms us).2.getD i 0 = (1 - step * lam) * us.getD i 0 := by
  intro ms
  induction ms with
  | nil =>
    intro us h i
    cases us with
    | nil => simp [gradStep]
    | cons u us => simp at h
  | cons m ms ih =>
    intro us h i
    cases us with
    | nil => simp at h
    | cons u us =>
      cases i with
      | zero => simp [gradStep]; constructor <;> ring
      | succ n =>
        simp only [gradStep, List.getD_cons_succ]
        exact ih us (by simpa using h) n

/-! ## Claim theorems: the gradient kernel and the step-size schedule -/

/-- C5: each of the four step-size functions is a pure function of the round
number only (they are functions of the round by construction) and computes
exactly its specified formula; the Intel schedule takes the values 0.001,
0.0009 and 0.00081 at rounds 0, 1, 2 within 1e-12. -/
theorem C5_step_size_functions :
    (∀ r : ℕ, IntelLearnFN_step_size r = 0.001 * 0.9 ^ r) ∧
    (∀ r : ℕ, PurdueLearnFN_step_size r =
      0.001 * 1.5 / (1 + 0.9 * ((r : ℝ) + 1) ^ (1.5 : ℝ))) ∧
    (∀ r : ℕ, BottouLearnFN_step_size r = 0.1 / (1 + 0.1 * 0.001 * (r : ℚ))) ∧
    (∀ r : ℕ, InvLearnFN_step_size r = 1 / ((r : ℚ) + 1)) ∧
    |IntelLearnFN_step_size 0 - 0.001| ≤ 1e-12 ∧
    |IntelLearnFN_step_size 1 - 0.0009| ≤ 1e-12 ∧
    |IntelLearnFN_step_size 2 - 0.00081| ≤ 1e-12 := by
  refine ⟨fun r => rfl, fun r => ?_, fun r => rfl, fun r => rfl, ?_, ?_, ?_⟩
  · norm_num [PurdueLearnFN_step_size, LEARNING_RATE, DECAY_RATE]
  all_goals norm_num [IntelLearnFN_step_size, LEARNING_RATE, DECAY_RATE, abs_le]

/-- C2: doGradientUpdate computes err = rating - dot(movie, user) and adds
step * (err * u_i - lam * m_i) to the movie component and
step * (err * m_i - lam * u_i) to the user component, both computed from the
pre-update values of both vectors; consequently the 1-by-1 scenario with
rating 3, step 0.001 and lam = 0 yields err = 3, movie [1, 0.003] and user
[0.003, 1]. -/
theorem C2_gradient_update :
    (∀ (lam step : ℚ) (rating : ℕ) (mv us : Node) (i : ℕ),
        i < mv.latent_vector.length → i < us.latent_vector.length →
        (doGradientUpdateL lam mv us rating step).1.latent_vector.getD i 0 =
          mv.latent_vector.getD i 0 +
            step * (((rating : ℚ) - vector_dot mv.latent_vector us.latent_vector) *
                us.latent_vector.getD i 0 - lam * mv.latent_vector.getD i 0) ∧
        (doGradientUpdateL lam mv us rating step).2.latent_vector.getD i 0 =
          us.latent_vector.getD i 0 +
            step * (((rating : ℚ) - vector_dot mv.latent_vector us.latent_vector) *
                mv.latent_vector.getD i 0 - lam * us.latent_vector.getD i 0)) ∧
    ((3 : ℚ) - vector_dot [1, 0] [0, 1] = 3 ∧
      (doGradientUpdateL 0 ⟨[1, 0], 0, 0⟩ ⟨[0, 1], 0, 0⟩ 3 0.001).1.latent_vector
        = [1, 0.003] ∧
      (doGradientUpdateL 0 ⟨[1, 0], 0, 0⟩ ⟨[0, 1], 0, 0⟩ 3 0.001).2.latent_vector
        = [0.003, 1]) := by
  constructor
  · intro lam step rating mv us i h1 h2
    exact lem_gradStep_getD lam step _ mv.latent_vector us.latent_vector i h1 h2
  · refine ⟨by norm_num [vector_dot], ?_, ?_⟩ <;>
      norm_num [doGradientUpdateL, gradStep, vector_dot]

/-- C2 witness: the general statement applied to the 1-by-1 scenario at
index 1. -/
theorem C2_gradient_update_witness :
    (doGradientUpdateL 0 ⟨[1, 0], 0, 0⟩ ⟨[0, 1], 0, 0⟩ 3 0.001).1.latent_vector.getD 1 0 =
      ([1, 0] : List ℚ).getD 1 0 +
        0.001 * (((3 : ℚ) - vector_dot [1, 0] [0, 1]) * ([0, 1] : List ℚ).getD 1 0 -
            0 * ([1, 0] : List ℚ).getD 1 0) ∧
    (doGradientUpdateL 0 ⟨[1, 0], 0, 0⟩ ⟨[0, 1], 0, 0⟩ 3 0.001).2.latent_vector.getD 1 0 =
      ([0, 1] : List ℚ).getD 1 0 +
        0.001 * (((3 : ℚ) - vector_dot [1, 0] [0, 1]) * ([1, 0] : List ℚ).getD 1 0 -
            0 * ([0, 1] : List ℚ).getD 1 0) :=
  C2_gradient_update.1 0 0.001 3 ⟨[1, 0], 0, 0⟩ ⟨[0, 1], 0, 0⟩ 1 (by decide) (by decide)

/-- C9: when the rating equals the dot product exactly, the error term is
zero and one doGradientUpdate step multiplies every component of both vectors
by (1 - step * LAMBDA); when step * LAMBDA is at most 1 this decreases the
absolute value of each component by exactly that factor. -/
theorem C9_kernel_symmetry :
    ∀ (step : ℚ) (rating : ℕ) (mv us : Node),
      mv.latent_vector.length = us.latent_vector.length →
      (rating : ℚ) = vector_dot mv.latent_vector us.latent_vector →
      ∀ i : ℕ,
        (doGradientUpdate mv us rating step).1.latent_vector.getD i 0 =
          (1 - step * LAMBDA) * mv.latent_vector.getD i 0 ∧
        (doGradientUpdate mv us rating step).2.latent_vector.getD i 0 =
          (1 - step * LAMBDA) * us.latent_vector.getD i 0 ∧
        (step * LAMBDA ≤ 1 →
          |(doGradientUpdate mv us rating step).1.latent_vector.getD i 0| =
            (1 - step * LAMBDA) * |mv.latent_vector.getD i 0| ∧
          |(doGradientUpdate mv us rating step).2.latent_vector.getD i 0| =
            (1 - step * LAMBDA) * |us.latent_vector.getD i 0|) := by
  intro step rating mv us hlen hdot i
  have herr : (rating : ℚ) - vector_dot mv.latent_vector us.latent_vector = 0 := by
    rw [hdot]; ring
  have hz := lem_gradStep_err_zero LAMBDA step mv.latent_vector us.latent_vector hlen i
  have h1 : (doGradientUpdate mv us rating step).1.latent_vector.getD i 0 =
      (1 - step * LAMBDA) * mv.latent_vector.getD i 0 := by
    unfold doGradientUpdate doGradientUpdateL
    simp only [herr]
    exact hz.1
  have h2 : (doGradientUpdate mv us rating step).2.latent_vector.getD i 0 =
      (1 - step * LAMBDA) * us.latent_vector.getD i 0 := by
    unfold doGradientUpdate doGradientUpdateL
    simp only [herr]
    exact hz.2
  refine ⟨h1, h2, fun hle => ?_⟩
  have hf : (0 : ℚ) ≤ 1 - step * LAMBDA := by linarith
  constructor
  · rw [h1, abs_mul, abs_of_nonneg hf]
  · rw [h2, abs_mul, abs_of_nonneg hf]

/-- C9 witness: a movie vector [1] and user vector [0] with rating 0 (the dot
product is 0), step size 1. -/
theorem C9_kernel_symmetry_witness :
    (doGradientUpdate ⟨[1], 0, 0⟩ ⟨[0], 0, 0⟩ 0 1).1.latent_vector.getD 0 0 =
      (1 - 1 * LAMBDA) * ([1] : List ℚ).getD 0 0 ∧
    (doGradientUpdate ⟨[1], 0, 0⟩ ⟨[0], 0, 0⟩ 0 1).2.latent_vector.getD 0 0 =
      (1 - 1 * LAMBDA) * ([0] : List ℚ).getD 0 0 ∧
    (1 * LAMBDA ≤ 1 →
      |(doGradientUpdate ⟨[1], 0, 0⟩ ⟨[0], 0, 0⟩ 0 1).1.latent_vector.getD 0 0| =
        (1 - 1 * LAMBDA) * |([1] : List ℚ).getD 0 0| ∧
      |(doGradientUpdate ⟨[1], 0, 0⟩ ⟨[0], 0, 0⟩ 0 1).2.latent_vector.getD 0 0| =
        (1 - 1 * LAMBDA) * |([0] : List ℚ).getD 0 0|) :=
  C9_kernel_symmetry 1 0 ⟨[1], 0, 0⟩ ⟨[0], 0, 0⟩ (by decide) (by norm_num [vector_dot]) 0

/-- C10: doGradientUpdate changes only the latent vectors of its two nodes:
it preserves the updates counter and the edge_offset cursor of both nodes,
and a kernel call through two node references leaves every other entry of the
node array untouched (the ratings live in the immutable adjacency and cannot
be written at all; cursor bumps and update counts are separate writes in the
scheduler loops). -/
theorem C10_kernel_frame :
    (∀ (mv us : Node) (r : ℕ) (s : ℚ),
        (doGradientUpdate mv us r s).1.updates = mv.updates ∧
        (doGradientUpdate mv us r s).1.edge_offset = mv.edge_offset ∧
        (doGradientUpdate mv us r s).2.updates = us.updates ∧
        (doGradientUpdate mv us r s).2.edge_offset = us.edge_offset) ∧
    (∀ (nodes : List Node) (m u r : ℕ) (s : ℚ) (i : ℕ), i ≠ m → i ≠ u →
        (applyGradientAt nodes m u r s).getD i default = nodes.getD i default) ∧
    (∀ (nodes : List Node) (m u r : ℕ) (s : ℚ), m ≠ u →
        ((applyGradientAt nodes m u r s).getD m default).updates =
          (nodes.getD m default).updates ∧
        ((applyGradientAt nodes m u r s).getD m default).edge_offset =
          (nodes.getD m default).edge_offset ∧
        ((applyGradientAt nodes m u r s).getD u default).updates =
          (nodes.getD u default).updates ∧
        ((applyGradientAt nodes m u r s).getD u default).edge_offset =
          (nodes.getD u default).edge_offset) := by
  refine ⟨fun mv us r s => ⟨rfl, rfl, rfl, rfl⟩, ?_, ?_⟩
  · intro nodes m u r s i him hiu
    unfold applyGradientAt
    rw [lem_getD_set_ne _ _ _ (Ne.symm hiu), lem_getD_set_ne _ _ _ (Ne.symm him)]
  · intro nodes m u r s hmu
    have hgm : (applyGradientAt nodes m u r s).getD m default =
        (nodes.set m (doGradientUpdate (nodes.getD m default) (nodes.getD u default) r s).1).getD
          m default := by
      unfold applyGradientAt
      exact lem_getD_set_ne _ _ _ (Ne.symm hmu)
    have hfm : ((applyGradientAt nodes m u r s).getD m default).updates =
          (nodes.getD m default).updates ∧
        ((applyGradientAt nodes m u r s).getD m default).edge_offset =
          (nodes.getD m default).edge_offset := by
      rw [hgm]
      by_cases hml : m < nodes.length
      · rw [lem_getD_set_self _ _ _ hml]
        exact ⟨rfl, rfl⟩
      · rw [List.set_eq_of_length_le (by omega)]
        exact ⟨rfl, rfl⟩
    have hgu : ((applyGradientAt nodes m u r s).getD u default).updates =
          (nodes.getD u default).updates ∧
        ((applyGradientAt nodes m u r s).getD u default).edge_offset =
          (nodes.getD u default).edge_offset := by
      unfold applyGradientAt
      by_cases hul : u < nodes.length
      · rw [lem_getD_set_self _ _ _ (by simpa using hul)]
        exact ⟨rfl, rfl⟩
      · rw [List.set_eq_of_length_le (by simpa using Nat.le_of_not_lt hul),
          List.getD_eq_default _ _ (by simpa using Nat.le_of_not_lt hul),
          List.getD_eq_default _ _ (Nat.le_of_not_lt hul)]
        exact ⟨rfl, rfl⟩
    exact ⟨hfm.1, hfm.2, hgu.1, hgu.2⟩

/-- C10 witness: a two-node array with a gradient applied at (0, 1); node
fields and a third index are inspected. -/
theorem C10_kernel_frame_witness :
    (applyGradientAt [⟨[1], 0, 0⟩, ⟨[2], 0, 0⟩] 0 1 3 1).getD 2 default =
      ([⟨[1], 0, 0⟩, ⟨[2], 0, 0⟩] : List Node).getD 2 default ∧
    ((applyGradientAt [⟨[1], 0, 0⟩, ⟨[2], 0, 0⟩] 0 1 3 1).getD 0 default).updates =
      (([⟨[1], 0, 0⟩, ⟨[2], 0, 0⟩] : List Node).getD 0 default).updates :=
  ⟨C10_kernel_frame.2.1 [⟨[1], 0, 0⟩, ⟨[2], 0, 0⟩] 0 1 3 1 2 (by decide) (by decide),
    (C10_kernel_frame.2.2 [⟨[1], 0, 0⟩, ⟨[2], 0, 0⟩] 0 1 3 1 (by decide)).1⟩

/-- C7 counterexample: the pseudo-random draw 0 (which std::rand can return)
gives genRand = 2*0/RAND_MAX - 1 = -1 exactly, which is not strictly inside
(-1, 1); shown for the reference RAND_MAX = 32767. -/
theorem C7_counterexample :
    ¬ (-1 < genRand 32767 0 ∧ genRand 32767 0 < 1) := by
  norm_num [genRand]

/-- C7 amended: every latent component produced by initialization lies in the
closed interval [-1, 1] (the endpoints are attained at draws 0 and RAND_MAX),
and initialization sets every node's updates and edge_offset to 0. -/
theorem C7_amended :
    ∀ (RM r D numNodes i : ℕ) (rands : ℕ → ℕ),
      0 < RM → r ≤ RM →
      (-1 ≤ genRand RM r ∧ genRand RM r ≤ 1) ∧
      ((initGraphData D rands RM numNodes).getD i default).updates = 0 ∧
      ((initGraphData D rands RM numNodes).getD i default).edge_offset = 0 ∧
      ((∀ n, rands n ≤ RM) →
        ∀ q ∈ ((initGraphData D rands RM numNodes).getD i default).latent_vector,
          -1 ≤ q ∧ q ≤ 1) := by
  have hgen : ∀ RM r : ℕ, 0 < RM → r ≤ RM → -1 ≤ genRand RM r ∧ genRand RM r ≤ 1 := by
    intro RM r hRM hr
    have hRMQ : (0 : ℚ) < (RM : ℚ) := by exact_mod_cast hRM
    have hq1 : (r : ℚ) / (RM : ℚ) ≤ 1 := by
      rw [div_le_one hRMQ]; exact_mod_cast hr
    have hq0 : (0 : ℚ) ≤ (r : ℚ) / (RM : ℚ) :=
      div_nonneg (by positivity) hRMQ.le
    unfold genRand
    constructor <;> linarith
  intro RM r D numNodes i rands hRM hr
  have hnode : (initGraphData D rands RM numNodes).getD i default = default ∨
      (initGraphData D rands RM numNodes).getD i default = initNodeData D rands RM (i * D) := by
    by_cases hi : i < numNodes
    · right
      unfold initGraphData
      rw [List.getD_eq_getElem?_getD, List.getElem?_map]
      simp [List.getElem?_range hi]
    · left
      unfold initGraphData
      rw [List.getD_eq_getElem?_getD, List.getElem?_eq_none (by simpa using hi)]
      rfl
  refine ⟨hgen RM r hRM hr, ?_, ?_, ?_⟩
  · rcases hnode with h | h <;> rw [h] <;> rfl
  · rcases hnode with h | h <;> rw [h] <;> rfl
  · intro hbnd q hq
    rcases hnode with h | h
    · rw [h] at hq; simp [default] at hq
    · rw [h] at hq
      unfold initNodeData at hq
      simp only [List.mem_map, List.mem_range] at hq
      obtain ⟨j, _, rfl⟩ := hq
      exact hgen RM (rands (i * D + j)) hRM (hbnd (i * D + j))

/-- C7 amended witness: the bounds at the concrete draw 0 with RAND_MAX
32767. -/
theorem C7_amended_witness :
    -1 ≤ genRand 32767 0 ∧ genRand 32767 0 ≤ 1 :=
  (C7_amended 32767 0 0 0 0 (fun _ => 0) (by decide) (by decide)).1

/-! ## Cursor advancer -/

theorem lem_length_bumpOffset (m : ℕ) (st : SchedState) :
    (bumpOffset m st).nodes.length = st.nodes.length := by
  unfold bumpOffset setNode
  exact List.length_set st.nodes m _

theorem lem_getNode_bumpOffset (m : ℕ) (st : SchedState) (h : m < st.nodes.length) :
    getNode (bumpOffset m st) m =
      { getNode st m with edge_offset := (getNode st m).edge_offset + 1 } := by
  unfold bumpOffset setNode getNode
  exact lem_getD_set_self st.nodes _ default h

theorem lem_advanceLoop_offset (bound m : ℕ) :
    ∀ (es : List (ℕ × ℕ)) (st : SchedState), m < st.nodes.length →
      (getNode (advanceLoop bound m es st) m).edge_offset =
        (getNode st m).edge_offset +
          (es.takeWhile (fun e => decide (e.1 ≤ bound))).length := by
  intro es
  induction es with
  | nil => intro st _; simp [advanceLoop]
  | cons e rest ih =>
    intro st hlen
    by_cases hb : bound < e.1
    · have hp : decide (e.1 ≤ bound) = false := by simp; omega
      simp [advanceLoop, hb, List.takeWhile_cons, hp]
    · have hp : decide (e.1 ≤ bound) = true := by simp; omega
      have hlen' : m < (bumpOffset m st).nodes.length := by
        rw [lem_length_bumpOffset]; exact hlen
      simp only [advanceLoop, if_neg hb, List.takeWhile_cons, hp, if_pos rfl,
        List.length_cons]
      rw [ih (bumpOffset m st) hlen', lem_getNode_bumpOffset m st hlen]
      simp
      omega

theorem lem_takeWhile_getD_le (bound : ℕ) :
    ∀ (l : List (ℕ × ℕ)) (j : ℕ),
      j < (l.takeWhile (fun e => decide (e.1 ≤ bound))).length →
      (l.getD j (0, 0)).1 ≤ bound := by
  intro l
  induction l with
  | nil => intro j h; simp at h
  | cons e rest ih =>
    intro j h
    rw [List.takeWhile_cons] at h
    by_cases hp : e.1 ≤ bound
    · have hp' : decide (e.1 ≤ bound) = true := by simpa using hp
      rw [hp', if_pos rfl] at h
      cases j with
      | zero => simpa using hp
      | succ n =>
        simp only [List.length_cons] at h
        rw [List.getD_cons_succ]
        exact ih n (by omega)
    · have hp' : decide (e.1 ≤ bound) = false := by simpa using hp
      rw [hp', if_neg (by simp)] at h
      simp at h

theorem lem_takeWhile_stop (bound : ℕ) :
    ∀ (l : List (ℕ × ℕ)),
      (l.takeWhile (fun e => decide (e.1 ≤ bound))).length < l.length →
      bound < (l.getD (l.takeWhile (fun e => decide (e.1 ≤ bound))).length (0, 0)).1 := by
  intro l
  induction l with
  | nil => intro h; simp at h
  | cons e rest ih =>
    intro h
    rw [List.takeWhile_cons] at h ⊢
    by_cases hp : e.1 ≤ bound
    · have hp' : decide (e.1 ≤ bound) = true := by simpa using hp
      rw [hp', if_pos rfl] at h ⊢
      simp only [List.length_cons] at h ⊢
      rw [List.getD_cons_succ]
      exact ih (by omega)
    · have hp' : decide (e.1 ≤ bound) = false := by simpa using hp
      rw [hp', if_neg (by simp)] at h ⊢
      simp only [List.length_nil, List.getD_cons_zero]
      omega

/-- C3 counterexample: a graph with one movie (node 0) and users at nodes 1
and 2, a single edge to node 2, and userRangeStart = 0.  The claim's bound is
userRangeStart + M = 1, so the claimed cursor stays at 0 (specAdvanceOffset
follows the spec's words and computes 0); the source's advance_edge_iterators
compares against userIdToUserNode(userRangeStart) = userRangeStart + M + 1 = 2
and moves the cursor over the edge, to 1. -/
theorem C3_advance_counterexample :
    (getNode (advance_edge_iterators_item c3G (initWorkItem c3G 1 2048 512 0) c3St0) 0).edge_offset = 1 ∧
    specAdvanceOffset c3G 0 0 = 0 ∧
    ¬ ((getNode (advance_edge_iterators_item c3G (initWorkItem c3G 1 2048 512 0) c3St0) 0).edge_offset
        = specAdvanceOffset c3G 0 0) := by decide

/-- C3 amended: the advancer runs exactly once, before round 0 (it is invoked
once in runBlockSlicesBlock before the round loop), and for each movie of
worker i's range it advances the cursor over exactly the leading edges whose
destination node id is at most userRangeStart + M + 1 (not + M as claimed:
userIdToUserNode adds one after biasing by M), leaving the cursor at the
first edge whose destination exceeds that bound, or at the end of the list. -/
theorem C3_advance_amended :
    ∀ (g : SGraph) (uStart m : ℕ) (st : SchedState),
      m < st.nodes.length → (getNode st m).edge_offset = 0 →
      (getNode (advanceMovie g (userIdToUserNode g.numMovies uStart) m st) m).edge_offset =
        ((adjOf g m).takeWhile (fun e => decide (e.1 ≤ uStart + g.numMovies + 1))).length ∧
      (∀ j, j < ((adjOf g m).takeWhile (fun e => decide (e.1 ≤ uStart + g.numMovies + 1))).length →
        ((adjOf g m).getD j (0, 0)).1 ≤ uStart + g.numMovies + 1) ∧
      (((adjOf g m).takeWhile (fun e => decide (e.1 ≤ uStart + g.numMovies + 1))).length <
          (adjOf g m).length →
        uStart + g.numMovies + 1 <
          ((adjOf g m).getD
            ((adjOf g m).takeWhile (fun e => decide (e.1 ≤ uStart + g.numMovies + 1))).length
            (0, 0)).1) := by
  intro g uStart m st hlen hoff
  have hbound : userIdToUserNode g.numMovies uStart = uStart + g.numMovies + 1 := rfl
  constructor
  · unfold advanceMovie
    rw [hoff, List.drop_zero, lem_advanceLoop_offset _ m (adjOf g m) st hlen, hoff, hbound]
    omega
  · exact ⟨lem_takeWhile_getD_le _ (adjOf g m), lem_takeWhile_stop _ (adjOf g m)⟩

/-- C3 amended witness: the amended statement evaluated on the c3G example. -/
theorem C3_advance_amended_witness :
    (getNode (advanceMovie c3G (userIdToUserNode c3G.numMovies 0) 0 c3St0) 0).edge_offset =
      ((adjOf c3G 0).takeWhile (fun e => decide (e.1 ≤ 0 + c3G.numMovies + 1))).length :=
  (C3_advance_amended c3G 0 0 c3St0 (by decide) (by decide)).1

/-! ## Concrete scheduling runs -/

/-- C1: the coverage invariant fails on the code.  On bgG (two movies at
nodes 0 and 1, two users at nodes 2 and 3, one rating each) with one worker,
a full runBlockSlices<sgd_block> run of MAX_MOVIE_UPDATES = 5 rounds would
have to apply the kernel to each edge exactly once per round, 5 times per
edge in total.  Instead, movie 0's edge is processed 4 times (the advancer
has already moved its cursor past the edge before round 0) and movie 1's edge
is never processed at all: sgd_block compares the destination node id 3
against the unbiased bound userRangeEnd = NUM_USER_NODES = 2, so the edge is
always rejected. -/
theorem C1_block_coverage_failure :
    movieCount (runBlockSlicesBlock bgG 1 2048 512 (fun _ => 1) bgSt0).2.glog 0 = 4 ∧
    movieCount (runBlockSlicesBlock bgG 1 2048 512 (fun _ => 1) bgSt0).2.glog 1 = 0 := by decide

/-- C4 counterexample: on c4G with W = 2 workers and usersPerBlockSlice = 2,
worker 1 owns movie 1 (out-degree 4).  Its user-column upper bound reaches
U = 4 already at sub-step 0 (column (0+1) mod 2 = 1), where the cursor is
reset; the following, last sub-step of the round then consumes edges again,
so after the last sub-step of the round the cursor is 3: neither
out_degree = 4 nor 0, contradicting the claim. -/
theorem C4_cursor_counterexample :
    ¬ ((getNode (workerStateUsers c4G 1 2 2 1 c4StAdv 2) 1).edge_offset = (adjOf c4G 1).length ∨
        (getNode (workerStateUsers c4G 1 2 2 1 c4StAdv 2) 1).edge_offset = 0) := by decide

/-- C6 counterexample: on the one-movie one-user graph nmG, a full
sgd_node_movie run applies 10 gradient updates with node 0 as the movie (one
per round), yet node 0's updates field is still 0 at the end, because
sgd_node_movie::operator() never increments it. -/
theorem C6_counterexample :
    ¬ ((getNode (sgd_node_movie_go nmG (fun _ => 1) nmSt0) 0).updates =
        movieCount (sgd_node_movie_go nmG (fun _ => 1) nmSt0).glog 0) := by decide

/-! ## Marching slices termination -/

theorem lem_march_body_counters (g : SGraph) (step_size : ℚ) (ups uEnd : ℕ)
    (ms : List ℕ) (s : MarchState) :
    (sgd_march_body g step_size ups uEnd ms s).sliceUpdates = s.sliceUpdates + 1 ∧
    (sgd_march_body g step_size ups uEnd ms s).iters = s.iters + 1 := by
  unfold sgd_march_body
  exact ⟨rfl, rfl⟩

theorem lem_march_loopAux_counters (g : SGraph) (step_size : ℚ) (ups uEnd : ℕ)
    (ms : List ℕ) (bound : ℕ) :
    ∀ (fuel : ℕ) (s : MarchState), bound - s.sliceUpdates ≤ fuel →
      (sgd_march_loopAux g step_size ups uEnd ms bound fuel s).iters =
        s.iters + (bound - s.sliceUpdates) ∧
      (sgd_march_loopAux g step_size ups uEnd ms bound fuel s).sliceUpdates =
        max s.sliceUpdates bound := by
  intro fuel
  induction fuel with
  | zero =>
    intro s hf
    have : ¬ s.sliceUpdates < bound := by omega
    simp [sgd_march_loopAux]
    omega
  | succ fuel ih =>
    intro s hf
    by_cases hc : s.sliceUpdates < bound
    · have hb := lem_march_body_counters g step_size ups uEnd ms s
      have ih' := ih (sgd_march_body g step_size ups uEnd ms s) (by omega)
      rw [hb.1] at ih'
      simp only [sgd_march_loopAux, if_pos hc]
      rw [ih'.1, ih'.2, hb.2]
      constructor <;> omega
    · simp only [sgd_march_loopAux, if_neg hc]
      omega

/-- C8: each worker of the sliceMarch variant runs its main loop for exactly
MAX_MOVIE_UPDATES * S iterations, where S = NUM_USER_NODES /
usersPerBlockSlice is the global number of user slices computed by
runSliceMarch; the per-worker sliceUpdates counter is incremented by exactly
one on every iteration (wrap-around iterations included), ends at that same
bound, and the loop then stops. -/
theorem C8_march_termination :
    ∀ (g : SGraph) (step_size : ℚ) (ups W k : ℕ) (st : SchedState),
      (sgd_march_worker g step_size ups W k st).iters =
        MAX_MOVIE_UPDATES * numSlicesOf g ups ∧
      (sgd_march_worker g step_size ups W k st).sliceUpdates =
        MAX_MOVIE_UPDATES * numSlicesOf g ups ∧
      (∀ (uEnd : ℕ) (ms : List ℕ) (s : MarchState),
        (sgd_march_body g step_size ups uEnd ms s).sliceUpdates = s.sliceUpdates + 1) := by
  intro g step_size ups W k st
  refine ⟨?_, ?_, fun uEnd ms s => (lem_march_body_counters g step_size ups uEnd ms s).1⟩ <;>
  · unfold sgd_march_worker sgd_march_loop
    have h := lem_march_loopAux_counters g step_size ups
      (marchWorkItem g W ups k).userRangeEnd
      (movieRangeList (marchWorkItem g W ups k).movieRangeStart
        (marchWorkItem g W ups k).movieRangeEnd)
      (MAX_MOVIE_UPDATES * (marchWorkItem g W ups k).numSlices)
      (MAX_MOVIE_UPDATES * (marchWorkItem g W ups k).numSlices -
        ({ sched := st
           currentBlockSliceEnd := (marchWorkItem g W ups k).userRangeStart
           currentSliceId := (marchWorkItem g W ups k).sliceStart
           sliceUpdates := 0
           iters := 0 } : MarchState).sliceUpdates)
      { sched := st
        currentBlockSliceEnd := (marchWorkItem g W ups k).userRangeStart
        currentSliceId := (marchWorkItem g W ups k).sliceStart
        sliceUpdates := 0
        iters := 0 }
      (le_refl _)
    first
    | (rw [h.1]; simp [marchWorkItem, numSlicesOf])
    | (rw [h.2]; simp [marchWorkItem, numSlicesOf])

/-! ## Frame and cursor lemmas for the grid loops -/

theorem lem_length_consumeEdge (step_size : ℚ) (m dst rating : ℕ) (st : SchedState) :
    (consumeEdge step_size m dst rating st).nodes.length = st.nodes.length := by
  unfold consumeEdge
  simp [List.length_set]

theorem lem_getNode_consumeEdge_ne (step_size : ℚ) (m dst rating : ℕ) (st : SchedState)
    {i : ℕ} (him : i ≠ m) (hid : i ≠ dst) :
    getNode (consumeEdge step_size m dst rating st) i = getNode st i := by
  unfold consumeEdge getNode
  rw [lem_getD_set_ne _ _ _ (Ne.symm hid), lem_getD_set_ne _ _ _ (Ne.symm him)]

theorem lem_set_set_getD (l : List Node) (m dst : ℕ) (a b : Node) :
    ((l.set m a).set dst b).getD m default =
      if m < l.length then (if dst = m then b else a) else l.getD m default := by
  by_cases hmd : dst = m
  · subst hmd
    by_cases hml : dst < l.length
    · rw [lem_getD_set_self _ _ _ (by simpa using hml)]
      simp [hml]
    · rw [List.set_eq_of_length_le (by simpa using Nat.le_of_not_lt hml),
        List.set_eq_of_length_le (Nat.le_of_not_lt hml)]
      simp [hml]
  · rw [lem_getD_set_ne _ _ _ hmd]
    by_cases hml : m < l.length
    · rw [lem_getD_set_self _ _ _ hml]
      simp [hml, hmd]
    · rw [List.set_eq_of_length_le (Nat.le_of_not_lt hml)]
      simp [hml]

theorem lem_consumeEdge_offset_ge (step_size : ℚ) (m dst rating : ℕ) (st : SchedState) :
    (getNode st m).edge_offset ≤
      (getNode (consumeEdge step_size m dst rating st) m).edge_offset := by
  simp only [consumeEdge, getNode]
  rw [lem_set_set_getD]
  by_cases hml : m < st.nodes.length
  · rw [if_pos hml]
    by_cases hmd : dst = m
    · rw [if_pos hmd]
      subst hmd
      exact le_of_eq rfl
    · rw [if_neg hmd]
      exact Nat.le_succ _
  · rw [if_neg hml]

theorem lem_edgeLoop_offset_ge (step_size : ℚ) (bound m : ℕ) :
    ∀ (es : List (ℕ × ℕ)) (st : SchedState),
      (getNode st m).edge_offset ≤ (getNode (edgeLoop step_size bound m es st) m).edge_offset := by
  intro es
  induction es with
  | nil => intro st; exact le_refl _
  | cons e rest ih =>
    intro st
    by_cases hb : bound < e.1
    · simp [edgeLoop, hb]
    · simp only [edgeLoop, if_neg hb]
      exact le_trans (lem_consumeEdge_offset_ge step_size m e.1 e.2 st)
        (ih (consumeEdge step_size m e.1 e.2 st))

theorem lem_edgeLoop_frame (step_size : ℚ) (bound m : ℕ) :
    ∀ (es : List (ℕ × ℕ)) (st : SchedState) {i : ℕ}, i ≠ m → (∀ e ∈ es, e.1 ≠ i) →
      getNode (edgeLoop step_size bound m es st) i = getNode st i := by
  intro es
  induction es with
  | nil => intro st i _ _; rfl
  | cons e rest ih =>
    intro st i him hes
    by_cases hb : bound < e.1
    · simp [edgeLoop, hb]
    · simp only [edgeLoop, if_neg hb]
      rw [ih _ him (fun e' he' => hes e' (List.mem_cons_of_mem e he')),
        lem_getNode_consumeEdge_ne step_size m e.1 e.2 st him
          (Ne.symm (hes e (List.mem_cons_self e rest)))]

theorem lem_Bip_adjOf {g : SGraph} (hg : Bip g) (m : ℕ) :
    ∀ e ∈ adjOf g m, g.numMovies ≤ e.1 := by
  intro e he
  unfold adjOf at he
  by_cases hm : m < g.adj.length
  · exact hg m hm e he
  · rw [List.getD_eq_default _ _ (Nat.le_of_not_lt hm)] at he
    simp at he

theorem lem_processMovie_offset_ge (g : SGraph) (step_size : ℚ) (bound m : ℕ)
    (st : SchedState) :
    (getNode st m).edge_offset ≤
      (getNode (processMovie g step_size bound m st) m).edge_offset :=
  lem_edgeLoop_offset_ge step_size bound m _ st

theorem lem_processMovie_frame {g : SGraph} (hg : Bip g) (step_size : ℚ) (bound m : ℕ)
    (st : SchedState) {i : ℕ} (him : i ≠ m) (hiM : i < g.numMovies) :
    getNode (processMovie g step_size bound m st) i = getNode st i := by
  unfold processMovie
  refine lem_edgeLoop_frame step_size bound m _ st him (fun e he => ?_)
  have := lem_Bip_adjOf hg m e (List.drop_subset _ _ he)
  omega

theorem lem_resetOffset_zero (m : ℕ) (st : SchedState) :
    (getNode (resetOffset m st) m).edge_offset = 0 := by
  unfold resetOffset setNode getNode
  by_cases hml : m < st.nodes.length
  · rw [lem_getD_set_self _ _ _ hml]
  · rw [List.set_eq_of_length_le (Nat.le_of_not_lt hml),
      List.getD_eq_default _ _ (Nat.le_of_not_lt hml)]
    rfl

theorem lem_getNode_resetOffset_ne (m : ℕ) (st : SchedState) {i : ℕ} (him : i ≠ m) :
    getNode (resetOffset m st) i = getNode st i := by
  unfold resetOffset
  exact lem_getNode_setNode_ne st _ (Ne.symm him)

theorem lem_perMovie_frame {g : SGraph} (hg : Bip g) (step_size : ℚ) (bound : ℕ)
    (reset : Bool) (m : ℕ) (st : SchedState) {i : ℕ} (him : i ≠ m) (hiM : i < g.numMovies) :
    getNode (perMovie g step_size bound reset m st) i = getNode st i := by
  unfold perMovie
  cases reset with
  | false =>
    simp only [Bool.false_eq_true, if_false]
    exact lem_processMovie_frame hg step_size bound m st him hiM
  | true =>
    simp only [if_true]
    rw [lem_getNode_resetOffset_ne m _ him]
    exact lem_processMovie_frame hg step_size bound m st him hiM

theorem lem_moviesPass_offset_ge {g : SGraph} (hg : Bip g) (step_size : ℚ) (bound : ℕ)
    {i : ℕ} (hiM : i < g.numMovies) :
    ∀ (ms : List ℕ) (st : SchedState),
      (getNode st i).edge_offset ≤
        (getNode (moviesPass g step_size bound false ms st) i).edge_offset := by
  intro ms
  induction ms with
  | nil => intro st; exact le_refl _
  | cons a rest ih =>
    intro st
    simp only [moviesPass, List.foldl_cons]
    by_cases hai : a = i
    · subst hai
      refine le_trans ?_ (ih (perMovie g step_size bound false a st))
      unfold perMovie
      simp only [Bool.false_eq_true, if_false]
      exact lem_processMovie_offset_ge g step_size bound a st
    · refine le_trans ?_ (ih (perMovie g step_size bound false a st))
      rw [lem_perMovie_frame hg step_size bound false a st (Ne.symm hai) hiM]

theorem lem_moviesPass_reset_zero {g : SGraph} (hg : Bip g) (step_size : ℚ) (bound : ℕ)
    {i : ℕ} (hiM : i < g.numMovies) :
    ∀ (ms : List ℕ) (st : SchedState),
      (i ∈ ms ∨ (getNode st i).edge_offset = 0) →
      (getNode (moviesPass g step_size bound true ms st) i).edge_offset = 0 := by
  intro ms
  induction ms with
  | nil =>
    intro st h
    rcases h with h | h
    · simp at h
    · exact h
  | cons a rest ih =>
    intro st h
    simp only [moviesPass, List.foldl_cons]
    by_cases hai : a = i
    · subst hai
      refine ih (perMovie g step_size bound true a st) (Or.inr ?_)
      unfold perMovie
      simp only [if_true]
      exact lem_resetOffset_zero a _
    · rcases h with h | h
      · rcases List.mem_cons.mp h with h' | h'
        · omega
        · exact ih (perMovie g step_size bound true a st) (Or.inl h')
      · refine ih (perMovie g step_size bound true a st) (Or.inr ?_)
        rw [lem_perMovie_frame hg step_size bound true a st (Ne.symm hai) hiM]
        exact h

theorem lem_sliceAux_stop (g : SGraph) (step_size : ℚ) (ups uEnd : ℕ) (ms : List ℕ)
    (fuel cur : ℕ) (st : SchedState) (h : ¬ (cur < uEnd ∧ 0 < ups)) :
    sliceLoopUsersAux g step_size ups uEnd ms fuel cur st = st := by
  cases fuel with
  | zero => rfl
  | succ fuel => simp [sliceLoopUsersAux, h]

theorem lem_sliceAux_offset_ge {g : SGraph} (hg : Bip g) (step_size : ℚ)
    (ups uEnd : ℕ) (ms : List ℕ) {i : ℕ} (hiM : i < g.numMovies)
    (hEnd : uEnd < g.numUsers) :
    ∀ (fuel cur : ℕ) (st : SchedState),
      (getNode st i).edge_offset ≤
        (getNode (sliceLoopUsersAux g step_size ups uEnd ms fuel cur st) i).edge_offset := by
  intro fuel
  induction fuel with
  | zero => intro cur st; exact le_refl _
  | succ fuel ih =>
    intro cur st
    by_cases hc : cur < uEnd ∧ 0 < ups
    · simp only [sliceLoopUsersAux, if_pos hc]
      have hflag : (min (cur + ups) uEnd == g.numUsers) = false := by
        simp only [beq_eq_false_iff_ne]
        omega
      rw [hflag]
      exact le_trans (lem_moviesPass_offset_ge hg step_size _ hiM ms st)
        (ih (min (cur + ups) uEnd) _)
    · rw [lem_sliceAux_stop g step_size ups uEnd ms (fuel + 1) cur st hc]

theorem lem_sliceAux_reset_zero {g : SGraph} (hg : Bip g) (step_size : ℚ)
    (ups : ℕ) (ms : List ℕ) {i : ℕ} (hiM : i < g.numMovies) (hi : i ∈ ms) :
    ∀ (fuel cur : ℕ) (st : SchedState),
      cur < g.numUsers → 0 < ups → g.numUsers - cur ≤ fuel →
      (getNode (sliceLoopUsersAux g step_size ups g.numUsers ms fuel cur st) i).edge_offset
        = 0 := by
  intro fuel
  induction fuel with
  | zero => intro cur st hcur _ hf; omega
  | succ fuel ih =>
    intro cur st hcur hups hf
    have hc : cur < g.numUsers ∧ 0 < ups := ⟨hcur, hups⟩
    simp only [sliceLoopUsersAux, if_pos hc]
    by_cases hlast : min (cur + ups) g.numUsers = g.numUsers
    · have hflag : (min (cur + ups) g.numUsers == g.numUsers) = true := by
        simpa using hlast
      rw [hflag, hlast]
      rw [lem_sliceAux_stop g step_size ups g.numUsers ms fuel g.numUsers _ (by omega)]
      exact lem_moviesPass_reset_zero hg step_size _ hiM ms st (Or.inl hi)
    · have hflag : (min (cur + ups) g.numUsers == g.numUsers) = false := by
        simpa using hlast
      rw [hflag]
      exact ih (min (cur + ups) g.numUsers) _ (by omega) hups (by omega)

theorem lem_div_mul_lt (U W : ℕ) (hW : 0 < W) (hU : 0 < U) (c : ℕ) (hc : c ≤ W - 1) :
    c * (U / W) < U := by
  have key : ∀ q : ℕ, q * W ≤ U → c * q ≤ (W - 1) * q →
      (W - 1) * q + q = W * q → c * q < U := by
    intro q h1 h2 h3
    rcases Nat.eq_zero_or_pos q with h | h
    · subst h
      omega
    · have h4 : W * q = q * W := Nat.mul_comm _ _
      omega
  refine key (U / W) (Nat.div_mul_le_self U W) (Nat.mul_le_mul_right _ hc) ?_
  cases W with
  | zero => omega
  | succ w => simp [Nat.succ_sub_one]; ring

theorem lem_workerSubstep_reset {g : SGraph} (hg : Bip g) (step_size : ℚ)
    {ups W k j m : ℕ} (hups : 0 < ups) (hkW : k < W) (hU : 0 < g.numUsers)
    (hm : m ∈ workerMovies g W k) (hmM : m < g.numMovies)
    (hc : colOf W k j = W - 1) (st : SchedState) :
    (getNode (workerSubstepUsers g step_size ups W k j st) m).edge_offset = 0 := by
  unfold workerSubstepUsers sliceLoopUsers
  rw [hc]
  have hend : colEnd g W (W - 1) = g.numUsers := by
    unfold colEnd
    simp
  rw [hend]
  have hstart : colStart g W (W - 1) < g.numUsers := by
    unfold colStart usersPerThreadOf
    rw [Nat.mul_comm]
    exact lem_div_mul_lt g.numUsers W (by omega) hU (W - 1) (le_refl _)
  exact lem_sliceAux_reset_zero hg step_size ups (workerMovies g W k) hmM hm
    (g.numUsers - colStart g W (W - 1)) (colStart g W (W - 1)) st hstart hups (le_refl _)

theorem lem_workerSubstep_mono {g : SGraph} (hg : Bip g) (step_size : ℚ)
    {ups W k j m : ℕ} (hkW : k < W) (hU : 0 < g.numUsers) (hmM : m < g.numMovies)
    (hc : colOf W k j ≠ W - 1) (st : SchedState) :
    (getNode st m).edge_offset ≤
      (getNode (workerSubstepUsers g step_size ups W k j st) m).edge_offset := by
  unfold workerSubstepUsers sliceLoopUsers
  have hcW : colOf W k j < W := Nat.mod_lt _ (by omega)
  have hend : colEnd g W (colOf W k j) = (colOf W k j + 1) * usersPerThreadOf g W := by
    unfold colEnd
    rw [if_neg hc]
  rw [hend]
  have hlt : (colOf W k j + 1) * usersPerThreadOf g W < g.numUsers := by
    unfold usersPerThreadOf
    exact lem_div_mul_lt g.numUsers W (by omega) hU (colOf W k j + 1) (by omega)
  exact lem_sliceAux_offset_ge hg step_size ups _ _ hmM hlt _ _ st

theorem lem_movieRangeList_mem_iff {m s e : ℕ} :
    m ∈ movieRangeList s e ↔ s ≤ m ∧ m < e := by
  unfold movieRangeList
  rw [List.mem_range']
  constructor
  · intro h
    obtain ⟨i, hi, rfl⟩ := h
    omega
  · intro h
    exact ⟨m - s, by omega, by omega⟩

theorem lem_workerSubstepBlock_eq (g : SGraph) (step_size : ℚ) (ups mps W k j : ℕ)
    (st : SchedState) :
    workerSubstepBlock g step_size ups mps W k j st =
      moviesPass g step_size (colEnd g W (colOf W k j))
        (colEnd g W (colOf W k j) == g.numUsers) (workerMovies g W k) st := rfl

theorem lem_workerSubstepUM_eq (g : SGraph) (step_size : ℚ) (ups mps W k j : ℕ)
    (st : SchedState) :
    workerSubstepUsersMovies g step_size ups mps W k j st =
      sliceLoopUsersMovies g step_size ups mps (colEnd g W (colOf W k j))
        (moviesPerThreadOf g W * k)
        (if k = W - 1 then g.numMovies
          else moviesPerThreadOf g W * k + moviesPerThreadOf g W)
        (colStart g W (colOf W k j)) st := rfl

theorem lem_workerSubstepBlock_reset {g : SGraph} (hg : Bip g) (step_size : ℚ)
    {ups mps W k j m : ℕ} (hm : m ∈ workerMovies g W k) (hmM : m < g.numMovies)
    (hc : colOf W k j = W - 1) (st : SchedState) :
    (getNode (workerSubstepBlock g step_size ups mps W k j st) m).edge_offset = 0 := by
  rw [lem_workerSubstepBlock_eq, hc]
  have hend : colEnd g W (W - 1) = g.numUsers := by
    unfold colEnd
    simp
  rw [hend]
  have hflag : (g.numUsers == g.numUsers) = true := by simp
  rw [hflag]
  exact lem_moviesPass_reset_zero hg step_size _ hmM _ st (Or.inl hm)

theorem lem_workerSubstepBlock_mono {g : SGraph} (hg : Bip g) (step_size : ℚ)
    {ups mps W k j m : ℕ} (hkW : k < W) (hU : 0 < g.numUsers) (hmM : m < g.numMovies)
    (hc : colOf W k j ≠ W - 1) (st : SchedState) :
    (getNode st m).edge_offset ≤
      (getNode (workerSubstepBlock g step_size ups mps W k j st) m).edge_offset := by
  rw [lem_workerSubstepBlock_eq]
  have hcW : colOf W k j < W := Nat.mod_lt _ (by omega)
  have hend : colEnd g W (colOf W k j) = (colOf W k j + 1) * usersPerThreadOf g W := by
    unfold colEnd
    rw [if_neg hc]
  have hlt : (colOf W k j + 1) * usersPerThreadOf g W < g.numUsers := by
    unfold usersPerThreadOf
    exact lem_div_mul_lt g.numUsers W (by omega) hU (colOf W k j + 1) (by omega)
  rw [hend]
  have hflag : ((colOf W k j + 1) * usersPerThreadOf g W == g.numUsers) = false := by
    simp only [beq_eq_false_iff_ne]
    omega
  rw [hflag]
  exact lem_moviesPass_offset_ge hg step_size _ hmM _ st

theorem lem_movieSliceAux_stop (g : SGraph) (step_size : ℚ) (bound : ℕ) (reset : Bool)
    (mps mEnd fuel cur : ℕ) (st : SchedState) (h : ¬ (cur < mEnd ∧ 0 < mps)) :
    movieSliceLoopAux g step_size bound reset mps mEnd fuel cur st = st := by
  cases fuel with
  | zero => rfl
  | succ fuel => simp [movieSliceLoopAux, h]

theorem lem_movieSliceAux_offset_ge {g : SGraph} (hg : Bip g) (step_size : ℚ)
    (bound mps mEnd : ℕ) {i : ℕ} (hiM : i < g.numMovies) :
    ∀ (fuel cur : ℕ) (st : SchedState),
      (getNode st i).edge_offset ≤
        (getNode (movieSliceLoopAux g step_size bound false mps mEnd fuel cur st) i).edge_offset := by
  intro fuel
  induction fuel with
  | zero => intro cur st; exact le_refl _
  | succ fuel ih =>
    intro cur st
    by_cases hc : cur < mEnd ∧ 0 < mps
    · simp only [movieSliceLoopAux, if_pos hc]
      exact le_trans (lem_moviesPass_offset_ge hg step_size bound hiM _ st) (ih _ _)
    · rw [lem_movieSliceAux_stop g step_size bound false mps mEnd (fuel + 1) cur st hc]

theorem lem_movieSliceAux_zero_pres {g : SGraph} (hg : Bip g) (step_size : ℚ)
    (bound mps mEnd : ℕ) {i : ℕ} (hiM : i < g.numMovies) :
    ∀ (fuel cur : ℕ) (st : SchedState), (getNode st i).edge_offset = 0 →
      (getNode (movieSliceLoopAux g step_size bound true mps mEnd fuel cur st) i).edge_offset
        = 0 := by
  intro fuel
  induction fuel with
  | zero => intro cur st h; exact h
  | succ fuel ih =>
    intro cur st h
    by_cases hc : cur < mEnd ∧ 0 < mps
    · simp only [movieSliceLoopAux, if_pos hc]
      exact ih _ _ (lem_moviesPass_reset_zero hg step_size bound hiM _ st (Or.inr h))
    · rw [lem_movieSliceAux_stop g step_size bound true mps mEnd (fuel + 1) cur st hc]
      exact h

theorem lem_movieSliceAux_zero {g : SGraph} (hg : Bip g) (step_size : ℚ)
    (bound mps mEnd : ℕ) {m : ℕ} (hmM : m < g.numMovies) :
    ∀ (fuel cur : ℕ) (st : SchedState),
      cur ≤ m → m < mEnd → 0 < mps → mEnd - cur ≤ fuel →
      (getNode (movieSliceLoopAux g step_size bound true mps mEnd fuel cur st) m).edge_offset
        = 0 := by
  intro fuel
  induction fuel with
  | zero => intro cur st h1 h2 _ h4; omega
  | succ fuel ih =>
    intro cur st h1 h2 hmps h4
    have hc : cur < mEnd ∧ 0 < mps := ⟨by omega, hmps⟩
    simp only [movieSliceLoopAux, if_pos hc]
    by_cases hm2 : m < min (cur + mps) mEnd
    · have hmem : m ∈ movieRangeList cur (min (cur + mps) mEnd) :=
        lem_movieRangeList_mem_iff.mpr ⟨h1, hm2⟩
      exact lem_movieSliceAux_zero_pres hg step_size bound mps mEnd hmM fuel _ _
        (lem_moviesPass_reset_zero hg step_size bound hmM _ st (Or.inl hmem))
    · exact ih _ _ (by omega) h2 hmps (by omega)

theorem lem_sliceUMAux_stop (g : SGraph) (step_size : ℚ) (ups mps uEnd mStart mEnd : ℕ)
    (fuel cur : ℕ) (st : SchedState) (h : ¬ (cur < uEnd ∧ 0 < ups)) :
    sliceLoopUsersMoviesAux g step_size ups mps uEnd mStart mEnd fuel cur st = st := by
  cases fuel with
  | zero => rfl
  | succ fuel => simp [sliceLoopUsersMoviesAux, h]

theorem lem_sliceUMAux_offset_ge {g : SGraph} (hg : Bip g) (step_size : ℚ)
    (ups mps uEnd mStart mEnd : ℕ) {i : ℕ} (hiM : i < g.numMovies)
    (hEnd : uEnd < g.numUsers) :
    ∀ (fuel cur : ℕ) (st : SchedState),
      (getNode st i).edge_offset ≤
        (getNode (sliceLoopUsersMoviesAux g step_size ups mps uEnd mStart mEnd fuel cur st)
          i).edge_offset := by
  intro fuel
  induction fuel with
  | zero => intro cur st; exact le_refl _
  | succ fuel ih =>
    intro cur st
    by_cases hc : cur < uEnd ∧ 0 < ups
    · simp only [sliceLoopUsersMoviesAux, if_pos hc]
      have hflag : (min (cur + ups) uEnd == g.numUsers) = false := by
        simp only [beq_eq_false_iff_ne]
        omega
      rw [hflag]
      refine le_trans ?_ (ih _ _)
      unfold movieSliceLoop
      exact lem_movieSliceAux_offset_ge hg step_size _ mps mEnd hiM _ _ st
    · rw [lem_sliceUMAux_stop g step_size ups mps uEnd mStart mEnd (fuel + 1) cur st hc]

theorem lem_sliceUMAux_zero {g : SGraph} (hg : Bip g) (step_size : ℚ)
    (ups mps mStart mEnd : ℕ) {m : ℕ} (hmM : m < g.numMovies)
    (hmS : mStart ≤ m) (hmE : m < mEnd) :
    ∀ (fuel cur : ℕ) (st : SchedState),
      cur < g.numUsers → 0 < ups → 0 < mps → g.numUsers - cur ≤ fuel →
      (getNode
        (sliceLoopUsersMoviesAux g step_size ups mps g.numUsers mStart mEnd fuel cur st)
        m).edge_offset = 0 := by
  intro fuel
  induction fuel with
  | zero => intro cur st hcur _ _ hf; omega
  | succ fuel ih =>
    intro cur st hcur hups hmps hf
    have hc : cur < g.numUsers ∧ 0 < ups := ⟨hcur, hups⟩
    simp only [sliceLoopUsersMoviesAux, if_pos hc]
    by_cases hlast : min (cur + ups) g.numUsers = g.numUsers
    · have hflag : (min (cur + ups) g.numUsers == g.numUsers) = true := by
        simpa using hlast
      rw [hflag, hlast]
      rw [lem_sliceUMAux_stop g step_size ups mps g.numUsers mStart mEnd fuel
        g.numUsers _ (by omega)]
      unfold movieSliceLoop
      exact lem_movieSliceAux_zero hg step_size _ mps mEnd hmM _ _ st hmS hmE hmps
        (le_refl _)
    · have hflag : (min (cur + ups) g.numUsers == g.numUsers) = false := by
        simpa using hlast
      rw [hflag]
      exact ih _ _ (by omega) hups hmps (by omega)

theorem lem_workerSubstepUM_reset {g : SGraph} (hg : Bip g) (step_size : ℚ)
    {ups mps W k j m : ℕ} (hups : 0 < ups) (hmps : 0 < mps) (hkW : k < W)
    (hU : 0 < g.numUsers) (hm : m ∈ workerMovies g W k) (hmM : m < g.numMovies)
    (hc : colOf W k j = W - 1) (st : SchedState) :
    (getNode (workerSubstepUsersMovies g step_size ups mps W k j st) m).edge_offset = 0 := by
  rw [lem_workerSubstepUM_eq, hc]
  have hend : colEnd g W (W - 1) = g.numUsers := by
    unfold colEnd
    simp
  rw [hend]
  have hstart : colStart g W (W - 1) < g.numUsers := by
    unfold colStart usersPerThreadOf
    rw [Nat.mul_comm]
    exact lem_div_mul_lt g.numUsers W (by omega) hU (W - 1) (le_refl _)
  have hbounds := lem_movieRangeList_mem_iff.mp hm
  unfold sliceLoopUsersMovies
  exact lem_sliceUMAux_zero hg step_size ups mps _ _ hmM hbounds.1 hbounds.2 _ _ st
    hstart hups hmps (le_refl _)

theorem lem_workerSubstepUM_mono {g : SGraph} (hg : Bip g) (step_size : ℚ)
    {ups mps W k j m : ℕ} (hkW : k < W) (hU : 0 < g.numUsers) (hmM : m < g.numMovies)
    (hc : colOf W k j ≠ W - 1) (st : SchedState) :
    (getNode st m).edge_offset ≤
      (getNode (workerSubstepUsersMovies g step_size ups mps W k j st) m).edge_offset := by
  rw [lem_workerSubstepUM_eq]
  have hcW : colOf W k j < W := Nat.mod_lt _ (by omega)
  have hend : colEnd g W (colOf W k j) = (colOf W k j + 1) * usersPerThreadOf g W := by
    unfold colEnd
    rw [if_neg hc]
  have hlt : (colOf W k j + 1) * usersPerThreadOf g W < g.numUsers := by
    unfold usersPerThreadOf
    exact lem_div_mul_lt g.numUsers W (by omega) hU (colOf W k j + 1) (by omega)
  rw [hend]
  unfold sliceLoopUsersMovies
  exact lem_sliceUMAux_offset_ge hg step_size ups mps _ _ _ hmM hlt _ _ st

/-- C4 amended: in every grid discipline — block (sgd_block), blockAndSliceUsers
(sgd_block_users), and blockAndSliceBoth (sgd_block_users_movies) — a movie's
edge_cursor is non-decreasing over every sub-step except the unique sub-step
of the round whose user-column upper bound reaches NUM_USER_NODES (the
sub-step at which worker k's column is W - 1, that is sub-step W - 1 - k), at
the end of which it is 0; for worker 0 that sub-step is the last of the
round, so worker 0's movies end every round with cursor 0.  For workers
k > 0 the reset happens before the last sub-step, and after the last
sub-step the cursor may be neither 0 nor out_degree(m), as the recorded
counterexample shows.  (For blockAndSliceBoth the reset conclusion assumes
0 < moviesPerBlockSlice, since its movie-chunk loop does not run otherwise.) -/
theorem C4_cursor_amended :
    ∀ (g : SGraph) (step_size : ℚ) (ups mps W k m j : ℕ) (st0 : SchedState),
      Bip g → 0 < ups → k < W → 0 < g.numUsers →
      m ∈ workerMovies g W k → m < g.numMovies → j < W →
      ((if colOf W k j = W - 1 then
          (getNode (workerStateBlock g step_size ups mps W k st0 (j + 1)) m).edge_offset = 0
        else
          (getNode (workerStateBlock g step_size ups mps W k st0 j) m).edge_offset ≤
            (getNode (workerStateBlock g step_size ups mps W k st0 (j + 1)) m).edge_offset) ∧
       (if colOf W k j = W - 1 then
          (getNode (workerStateUsers g step_size ups W k st0 (j + 1)) m).edge_offset = 0
        else
          (getNode (workerStateUsers g step_size ups W k st0 j) m).edge_offset ≤
            (getNode (workerStateUsers g step_size ups W k st0 (j + 1)) m).edge_offset) ∧
       (if colOf W k j = W - 1 then
          (0 < mps →
            (getNode (workerStateUsersMovies g step_size ups mps W k st0 (j + 1))
              m).edge_offset = 0)
        else
          (getNode (workerStateUsersMovies g step_size ups mps W k st0 j) m).edge_offset ≤
            (getNode (workerStateUsersMovies g step_size ups mps W k st0 (j + 1))
              m).edge_offset)) ∧
      (k = 0 →
        (getNode (workerStateBlock g step_size ups mps W k st0 W) m).edge_offset = 0 ∧
        (getNode (workerStateUsers g step_size ups W k st0 W) m).edge_offset = 0 ∧
        (0 < mps →
          (getNode (workerStateUsersMovies g step_size ups mps W k st0 W) m).edge_offset
            = 0)) := by
  intro g step_size ups mps W k m j st0 hg hups hkW hU hm hmM hjW
  constructor
  · refine ⟨?_, ?_, ?_⟩
    · by_cases hc : colOf W k j = W - 1
      · rw [if_pos hc]
        exact lem_workerSubstepBlock_reset hg step_size hm hmM hc
          (workerStateBlock g step_size ups mps W k st0 j)
      · rw [if_neg hc]
        exact lem_workerSubstepBlock_mono hg step_size hkW hU hmM hc
          (workerStateBlock g step_size ups mps W k st0 j)
    · by_cases hc : colOf W k j = W - 1
      · rw [if_pos hc]
        exact lem_workerSubstep_reset hg step_size hups hkW hU hm hmM hc
          (workerStateUsers g step_size ups W k st0 j)
      · rw [if_neg hc]
        exact lem_workerSubstep_mono hg step_size hkW hU hmM hc
          (workerStateUsers g step_size ups W k st0 j)
    · by_cases hc : colOf W k j = W - 1
      · rw [if_pos hc]
        intro hmps
        exact lem_workerSubstepUM_reset hg step_size hups hmps hkW hU hm hmM hc
          (workerStateUsersMovies g step_size ups mps W k st0 j)
      · rw [if_neg hc]
        exact lem_workerSubstepUM_mono hg step_size hkW hU hmM hc
          (workerStateUsersMovies g step_size ups mps W k st0 j)
  · intro hk0
    subst hk0
    cases W with
    | zero => omega
    | succ w =>
      have hc : colOf (w + 1) 0 w = (w + 1) - 1 := by
        unfold colOf
        simp [Nat.mod_eq_of_lt]
      refine ⟨?_, ?_, fun hmps => ?_⟩
      · exact lem_workerSubstepBlock_reset hg step_size hm hmM hc
          (workerStateBlock g step_size ups mps (w + 1) 0 st0 w)
      · exact lem_workerSubstep_reset hg step_size hups hkW hU hm hmM hc
          (workerStateUsers g step_size ups (w + 1) 0 st0 w)
      · exact lem_workerSubstepUM_reset hg step_size hups hmps hkW hU hm hmM hc
          (workerStateUsersMovies g step_size ups mps (w + 1) 0 st0 w)

/-- C4 amended witness: on the c4G example with two workers, worker 1's
sub-step 0 has column 1 = W - 1, so movie 1's cursor is 0 after it, in all
three grid variants. -/
theorem C4_cursor_amended_witness :
    (getNode (workerStateBlock c4G 1 2 512 2 1 c4StAdv 1) 1).edge_offset = 0 ∧
    (getNode (workerStateUsers c4G 1 2 2 1 c4StAdv 1) 1).edge_offset = 0 ∧
    (getNode (workerStateUsersMovies c4G 1 2 512 2 1 c4StAdv 1) 1).edge_offset = 0 := by
  have h := (C4_cursor_amended c4G 1 2 512 2 1 1 0 c4StAdv (by decide) (by decide)
    (by decide) (by decide) (by decide) (by decide) (by decide)).1
  have hc : colOf 2 1 0 = 2 - 1 := by decide
  rw [if_pos hc] at h
  exact ⟨(h.1 : _), (h.2.1 : _), h.2.2 (by decide)⟩

/-! ## The updates-log invariant -/

theorem lem_inv_refl (g : SGraph) (st : SchedState) : updatesLogInv g st st :=
  ⟨rfl, fun _ _ => rfl, fun _ _ => rfl⟩

theorem lem_inv_trans {g : SGraph} {st1 st2 st3 : SchedState}
    (h12 : updatesLogInv g st1 st2) (h23 : updatesLogInv g st2 st3) :
    updatesLogInv g st1 st3 := by
  refine ⟨h23.1.trans h12.1, fun m hm => ?_, fun u hu => ?_⟩
  · have a := h12.2.1 m hm
    have b := h23.2.1 m hm
    omega
  · rw [h23.2.2 u hu, h12.2.2 u hu]

theorem lem_movieCount_cons (a b i : ℕ) (l : List (ℕ × ℕ)) :
    movieCount ((a, b) :: l) i = movieCount l i + (if a = i then 1 else 0) := by
  unfold movieCount
  rw [List.filter_cons]
  by_cases hai : a = i
  · simp [hai]
  · simp [hai]

theorem lem_consumeEdge_user_updates (step_size : ℚ) (m dst rating : ℕ)
    (st : SchedState) {u : ℕ} (hum : u ≠ m) :
    (getNode (consumeEdge step_size m dst rating st) u).updates =
      (getNode st u).updates := by
  by_cases hud : u = dst
  · subst hud
    simp only [consumeEdge, getNode]
    by_cases hl : u < st.nodes.length
    · rw [lem_getD_set_self _ _ _ (by simpa using hl)]
      rfl
    · rw [List.set_eq_of_length_le (by simpa using Nat.le_of_not_lt hl),
        lem_getD_set_ne _ _ _ (Ne.symm hum)]
  · rw [lem_getNode_consumeEdge_ne step_size m dst rating st hum hud]

theorem lem_consumeEdge_inv {g : SGraph} (step_size : ℚ) {m dst : ℕ} (rating : ℕ)
    (st : SchedState) (hmM : m < g.numMovies) (hdst : g.numMovies ≤ dst)
    (hlen : g.numMovies ≤ st.nodes.length) :
    updatesLogInv g st (consumeEdge step_size m dst rating st) := by
  have hlog : (consumeEdge step_size m dst rating st).glog = (m, dst) :: st.glog := rfl
  refine ⟨lem_length_consumeEdge step_size m dst rating st, fun i hi => ?_, fun u hu => ?_⟩
  · by_cases him : i = m
    · subst him
      have hupd : (getNode (consumeEdge step_size i dst rating st) i).updates =
          (getNode st i).updates + 1 := by
        simp only [consumeEdge, getNode]
        rw [lem_set_set_getD, if_pos (by omega), if_neg (by omega)]
        rfl
      rw [hupd, hlog, lem_movieCount_cons, if_pos rfl]
      omega
    · rw [lem_getNode_consumeEdge_ne step_size m dst rating st him (by omega),
        hlog, lem_movieCount_cons, if_neg (fun h => him h.symm)]
      omega
  · rw [lem_consumeEdge_user_updates step_size m dst rating st (by omega)]

theorem lem_edgeLoop_inv {g : SGraph} (step_size : ℚ) (bound : ℕ) {m : ℕ}
    (hmM : m < g.numMovies) :
    ∀ (es : List (ℕ × ℕ)) (st : SchedState), (∀ e ∈ es, g.numMovies ≤ e.1) →
      g.numMovies ≤ st.nodes.length →
      updatesLogInv g st (edgeLoop step_size bound m es st) := by
  intro es
  induction es with
  | nil => intro st _ _; exact lem_inv_refl g st
  | cons e rest ih =>
    intro st hes hlen
    by_cases hb : bound < e.1
    · simp only [edgeLoop, if_pos hb]
      exact lem_inv_refl g st
    · simp only [edgeLoop, if_neg hb]
      have h1 : updatesLogInv g st (consumeEdge step_size m e.1 e.2 st) :=
        lem_consumeEdge_inv step_size e.2 st hmM (hes e (List.mem_cons_self e rest)) hlen
      refine lem_inv_trans h1 (ih _ (fun e' he' => hes e' (List.mem_cons_of_mem e he')) ?_)
      rw [h1.1]
      exact hlen

theorem lem_offset_write_inv (g : SGraph) (st : SchedState) (m x : ℕ) :
    updatesLogInv g st (setNode st m { getNode st m with edge_offset := x }) := by
  have hupd : ∀ i, (getNode (setNode st m { getNode st m with edge_offset := x }) i).updates =
      (getNode st i).updates := by
    intro i
    by_cases him : i = m
    · subst him
      unfold setNode getNode
      by_cases hl : i < st.nodes.length
      · rw [lem_getD_set_self _ _ _ hl]
      · rw [List.set_eq_of_length_le (Nat.le_of_not_lt hl)]
    · rw [lem_getNode_setNode_ne st _ (Ne.symm him)]
  refine ⟨?_, fun i hi => ?_, fun u _ => hupd u⟩
  · unfold setNode
    simp [List.length_set]
  · rw [hupd i]
    rfl

theorem lem_resetOffset_inv (g : SGraph) (st : SchedState) (m : ℕ) :
    updatesLogInv g st (resetOffset m st) :=
  lem_offset_write_inv g st m 0

theorem lem_bumpOffset_inv (g : SGraph) (st : SchedState) (m : ℕ) :
    updatesLogInv g st (bumpOffset m st) :=
  lem_offset_write_inv g st m _

theorem lem_perMovie_inv {g : SGraph} (hg : Bip g) (step_size : ℚ) (bound : ℕ)
    (reset : Bool) {m : ℕ} (hmM : m < g.numMovies) (st : SchedState)
    (hlen : g.numMovies ≤ st.nodes.length) :
    updatesLogInv g st (perMovie g step_size bound reset m st) := by
  have h1 : updatesLogInv g st (processMovie g step_size bound m st) := by
    unfold processMovie
    refine lem_edgeLoop_inv step_size bound hmM _ st (fun e he => ?_) hlen
    exact lem_Bip_adjOf hg m e (List.drop_subset _ _ he)
  unfold perMovie
  cases reset with
  | false => simpa using h1
  | true =>
    simp only [if_true]
    exact lem_inv_trans h1 (lem_resetOffset_inv g _ m)

theorem lem_moviesPass_inv {g : SGraph} (hg : Bip g) (step_size : ℚ) (bound : ℕ)
    (reset : Bool) :
    ∀ (ms : List ℕ) (st : SchedState), (∀ m' ∈ ms, m' < g.numMovies) →
      g.numMovies ≤ st.nodes.length →
      updatesLogInv g st (moviesPass g step_size bound reset ms st) := by
  intro ms
  induction ms with
  | nil => intro st _ _; exact lem_inv_refl g st
  | cons a rest ih =>
    intro st hms hlen
    simp only [moviesPass, List.foldl_cons]
    have h1 : updatesLogInv g st (perMovie g step_size bound reset a st) :=
      lem_perMovie_inv hg step_size bound reset (hms a (List.mem_cons_self a rest)) st hlen
    have h2 := ih (perMovie g step_size bound reset a st)
      (fun m' hm' => hms m' (List.mem_cons_of_mem a hm'))
      (by rw [h1.1]; exact hlen)
    exact lem_inv_trans h1 h2

theorem lem_sliceAux_inv {g : SGraph} (hg : Bip g) (step_size : ℚ) (ups uEnd : ℕ)
    {ms : List ℕ} (hms : ∀ m' ∈ ms, m' < g.numMovies) :
    ∀ (fuel cur : ℕ) (st : SchedState), g.numMovies ≤ st.nodes.length →
      updatesLogInv g st (sliceLoopUsersAux g step_size ups uEnd ms fuel cur st) := by
  intro fuel
  induction fuel with
  | zero => intro cur st _; exact lem_inv_refl g st
  | succ fuel ih =>
    intro cur st hlen
    by_cases hc : cur < uEnd ∧ 0 < ups
    · simp only [sliceLoopUsersAux, if_pos hc]
      have h1 := lem_moviesPass_inv hg step_size (min (cur + ups) uEnd + g.numMovies)
        (min (cur + ups) uEnd == g.numUsers) ms st hms hlen
      exact lem_inv_trans h1 (ih _ _ (by rw [h1.1]; exact hlen))
    · simp only [sliceLoopUsersAux, if_neg hc]
      exact lem_inv_refl g st

theorem lem_mem_movieRangeList {m' s e : ℕ} (h : m' ∈ movieRangeList s e) : m' < e := by
  unfold movieRangeList at h
  rw [List.mem_range'] at h
  obtain ⟨i, hi, rfl⟩ := h
  omega

theorem lem_movieSliceAux_inv {g : SGraph} (hg : Bip g) (step_size : ℚ) (bound : ℕ)
    (reset : Bool) (mps : ℕ) {mEnd : ℕ} (hme : mEnd ≤ g.numMovies) :
    ∀ (fuel cur : ℕ) (st : SchedState), g.numMovies ≤ st.nodes.length →
      updatesLogInv g st (movieSliceLoopAux g step_size bound reset mps mEnd fuel cur st) := by
  intro fuel
  induction fuel with
  | zero => intro cur st _; exact lem_inv_refl g st
  | succ fuel ih =>
    intro cur st hlen
    by_cases hc : cur < mEnd ∧ 0 < mps
    · simp only [movieSliceLoopAux, if_pos hc]
      have h1 := lem_moviesPass_inv hg step_size bound reset
        (movieRangeList cur (min (cur + mps) mEnd)) st
        (fun m' hm' => by have := lem_mem_movieRangeList hm'; omega) hlen
      exact lem_inv_trans h1 (ih _ _ (by rw [h1.1]; exact hlen))
    · simp only [movieSliceLoopAux, if_neg hc]
      exact lem_inv_refl g st

theorem lem_sliceUMAux_inv {g : SGraph} (hg : Bip g) (step_size : ℚ)
    (ups mps uEnd mStart : ℕ) {mEnd : ℕ} (hme : mEnd ≤ g.numMovies) :
    ∀ (fuel cur : ℕ) (st : SchedState), g.numMovies ≤ st.nodes.length →
      updatesLogInv g st
        (sliceLoopUsersMoviesAux g step_size ups mps uEnd mStart mEnd fuel cur st) := by
  intro fuel
  induction fuel with
  | zero => intro cur st _; exact lem_inv_refl g st
  | succ fuel ih =>
    intro cur st hlen
    by_cases hc : cur < uEnd ∧ 0 < ups
    · simp only [sliceLoopUsersMoviesAux, if_pos hc]
      have h1 : updatesLogInv g st
          (movieSliceLoop g step_size (min (cur + ups) uEnd + g.numMovies)
            (min (cur + ups) uEnd == g.numUsers) mps mEnd mStart st) := by
        unfold movieSliceLoop
        exact lem_movieSliceAux_inv hg step_size _ _ mps hme _ _ st hlen
      exact lem_inv_trans h1 (ih _ _ (by rw [h1.1]; exact hlen))
    · simp only [sliceLoopUsersMoviesAux, if_neg hc]
      exact lem_inv_refl g st

theorem lem_advanceLoop_inv (g : SGraph) (bound m : ℕ) :
    ∀ (es : List (ℕ × ℕ)) (st : SchedState),
      updatesLogInv g st (advanceLoop bound m es st) := by
  intro es
  induction es with
  | nil => intro st; exact lem_inv_refl g st
  | cons e rest ih =>
    intro st
    by_cases hb : bound < e.1
    · simp only [advanceLoop, if_pos hb]
      exact lem_inv_refl g st
    · simp only [advanceLoop, if_neg hb]
      exact lem_inv_trans (lem_bumpOffset_inv g st m) (ih _)

theorem lem_advanceItem_inv (g : SGraph) (wi : ThreadWorkItem) :
    ∀ (st : SchedState), updatesLogInv g st (advance_edge_iterators_item g wi st) := by
  unfold advance_edge_iterators_item
  generalize movieRangeList wi.movieRangeStart wi.movieRangeEnd = ms
  induction ms with
  | nil => intro st; exact lem_inv_refl g st
  | cons a rest ih =>
    intro st
    simp only [List.foldl_cons]
    refine lem_inv_trans ?_ (ih _)
    unfold advanceMovie
    exact lem_advanceLoop_inv g _ a _ st

theorem lem_block_item_inv {g : SGraph} (hg : Bip g) (step_size : ℚ)
    (wi : ThreadWorkItem) (st : SchedState) (hlen : g.numMovies ≤ st.nodes.length)
    (hme : wi.movieRangeEnd ≤ g.numMovies) :
    updatesLogInv g st (sgd_block_item g step_size wi st) := by
  unfold sgd_block_item
  exact lem_moviesPass_inv hg step_size _ _ _ st
    (fun m' hm' => lt_of_lt_of_le (lem_mem_movieRangeList hm') hme) hlen

theorem lem_block_users_item_inv {g : SGraph} (hg : Bip g) (step_size : ℚ)
    (wi : ThreadWorkItem) (st : SchedState) (hlen : g.numMovies ≤ st.nodes.length)
    (hme : wi.movieRangeEnd ≤ g.numMovies) :
    updatesLogInv g st (sgd_block_users_item g step_size wi st) := by
  unfold sgd_block_users_item sliceLoopUsers
  exact lem_sliceAux_inv hg step_size _ _
    (fun m' hm' => lt_of_lt_of_le (lem_mem_movieRangeList hm') hme) _ _ st hlen

theorem lem_block_users_movies_item_inv {g : SGraph} (hg : Bip g) (step_size : ℚ)
    (wi : ThreadWorkItem) (st : SchedState) (hlen : g.numMovies ≤ st.nodes.length)
    (hme : wi.movieRangeEnd ≤ g.numMovies) :
    updatesLogInv g st (sgd_block_users_movies_item g step_size wi st) := by
  unfold sgd_block_users_movies_item sliceLoopUsersMovies
  exact lem_sliceUMAux_inv hg step_size _ _ _ _ hme _ _ st hlen

theorem lem_doAll_block_inv {g : SGraph} (hg : Bip g) (step_size : ℚ) :
    ∀ (wis : List ThreadWorkItem) (st : SchedState),
      (∀ wi ∈ wis, wi.movieRangeEnd ≤ g.numMovies) → g.numMovies ≤ st.nodes.length →
      updatesLogInv g st (doAllItems (sgd_block_item g step_size) wis st) := by
  intro wis
  induction wis with
  | nil => intro st _ _; exact lem_inv_refl g st
  | cons wi rest ih =>
    intro st hok hlen
    simp only [doAllItems, List.foldl_cons]
    have h1 := lem_block_item_inv hg step_size wi st hlen (hok wi (List.mem_cons_self wi rest))
    have h2 := ih (sgd_block_item g step_size wi st)
      (fun wi' hwi' => hok wi' (List.mem_cons_of_mem wi hwi'))
      (by rw [h1.1]; exact hlen)
    exact lem_inv_trans h1 h2

theorem lem_doAll_advance_inv (g : SGraph) :
    ∀ (wis : List ThreadWorkItem) (st : SchedState),
      updatesLogInv g st (doAllItems (advance_edge_iterators_item g) wis st) := by
  intro wis
  induction wis with
  | nil => intro st; exact lem_inv_refl g st
  | cons wi rest ih =>
    intro st
    simp only [doAllItems, List.foldl_cons]
    exact lem_inv_trans (lem_advanceItem_inv g wi st) (ih _)

theorem lem_rotateWI_movieRangeEnd (g : SGraph) (W j : ℕ) (wi : ThreadWorkItem) :
    (rotateWI g W j wi).movieRangeEnd = wi.movieRangeEnd := rfl

theorem lem_blockFold_inv {g : SGraph} (hg : Bip g) (step_size : ℚ) (W : ℕ) :
    ∀ (js : List ℕ) (p : List ThreadWorkItem × SchedState),
      (∀ wi ∈ p.1, wi.movieRangeEnd ≤ g.numMovies) → g.numMovies ≤ p.2.nodes.length →
      updatesLogInv g p.2 (js.foldl (blockSubstepRotate g step_size W) p).2 ∧
      (∀ wi ∈ (js.foldl (blockSubstepRotate g step_size W) p).1,
        wi.movieRangeEnd ≤ g.numMovies) := by
  intro js
  induction js with
  | nil => intro p hok hlen; exact ⟨lem_inv_refl g p.2, hok⟩
  | cons j rest ih =>
    intro p hok hlen
    simp only [List.foldl_cons]
    have h1 : updatesLogInv g p.2 (blockSubstepRotate g step_size W p j).2 :=
      lem_doAll_block_inv hg step_size p.1 p.2 hok hlen
    have hok1 : ∀ wi ∈ (blockSubstepRotate g step_size W p j).1,
        wi.movieRangeEnd ≤ g.numMovies := by
      intro wi' hwi'
      unfold blockSubstepRotate at hwi'
      simp only [List.mem_map] at hwi'
      obtain ⟨wi, hwi, rfl⟩ := hwi'
      rw [lem_rotateWI_movieRangeEnd]
      exact hok wi hwi
    have h2 := ih (blockSubstepRotate g step_size W p j) hok1 (by rw [h1.1]; exact hlen)
    exact ⟨lem_inv_trans h1 h2.1, h2.2⟩

theorem lem_roundsFold_inv {g : SGraph} (hg : Bip g) (W : ℕ) (lf : ℕ → ℚ) :
    ∀ (us : List ℕ) (p : List ThreadWorkItem × SchedState),
      (∀ wi ∈ p.1, wi.movieRangeEnd ≤ g.numMovies) → g.numMovies ≤ p.2.nodes.length →
      updatesLogInv g p.2 (us.foldl (fun p upd => blockRound g (lf upd) W p) p).2 ∧
      (∀ wi ∈ (us.foldl (fun p upd => blockRound g (lf upd) W p) p).1,
        wi.movieRangeEnd ≤ g.numMovies) := by
  intro us
  induction us with
  | nil => intro p hok hlen; exact ⟨lem_inv_refl g p.2, hok⟩
  | cons u rest ih =>
    intro p hok hlen
    simp only [List.foldl_cons]
    have h1 := lem_blockFold_inv hg (lf u) W (List.range W) p hok hlen
    have h2 := ih (blockRound g (lf u) W p) h1.2
      (by unfold blockRound; rw [h1.1.1]; exact hlen)
    exact ⟨lem_inv_trans h1.1 h2.1, h2.2⟩

theorem lem_rangeEnd_le (g : SGraph) {i W : ℕ} (hiW : i < W) :
    (if i = W - 1 then g.numMovies
      else moviesPerThreadOf g W * i + moviesPerThreadOf g W) ≤ g.numMovies := by
  by_cases hi : i = W - 1
  · rw [if_pos hi]
  · rw [if_neg hi]
    have h1 : moviesPerThreadOf g W * i + moviesPerThreadOf g W =
        moviesPerThreadOf g W * (i + 1) := by ring
    have h2 : moviesPerThreadOf g W * (i + 1) ≤ moviesPerThreadOf g W * W :=
      Nat.mul_le_mul_left _ (by omega)
    have h3 : moviesPerThreadOf g W * W ≤ g.numMovies :=
      Nat.div_mul_le_self g.numMovies W
    omega

theorem lem_initWI_ok (g : SGraph) (W ups mps : ℕ) :
    ∀ wi ∈ initWorkItems g W ups mps, wi.movieRangeEnd ≤ g.numMovies := by
  intro wi hwi
  unfold initWorkItems at hwi
  simp only [List.mem_map, List.mem_range] at hwi
  obtain ⟨i, hi, rfl⟩ := hwi
  exact lem_rangeEnd_le g hi

theorem lem_runBlock_inv {g : SGraph} (hg : Bip g) (W ups mps : ℕ) (lf : ℕ → ℚ)
    (st : SchedState) (hlen : g.numMovies ≤ st.nodes.length) :
    updatesLogInv g st (runBlockSlicesBlock g W ups mps lf st).2 := by
  unfold runBlockSlicesBlock
  have h1 := lem_doAll_advance_inv g (initWorkItems g W ups mps) st
  have h2 := lem_roundsFold_inv hg W lf (List.range MAX_MOVIE_UPDATES)
    (initWorkItems g W ups mps,
      doAllItems (advance_edge_iterators_item g) (initWorkItems g W ups mps) st)
    (lem_initWI_ok g W ups mps) (by rw [h1.1]; exact hlen)
  exact lem_inv_trans h1 h2.1

theorem lem_march_loopAux_inv {g : SGraph} (hg : Bip g) (step_size : ℚ)
    (ups uEnd : ℕ) {ms : List ℕ} (hms : ∀ m' ∈ ms, m' < g.numMovies) (bound : ℕ) :
    ∀ (fuel : ℕ) (s : MarchState), g.numMovies ≤ s.sched.nodes.length →
      updatesLogInv g s.sched
        (sgd_march_loopAux g step_size ups uEnd ms bound fuel s).sched := by
  intro fuel
  induction fuel with
  | zero => intro s _; exact lem_inv_refl g s.sched
  | succ fuel ih =>
    intro s hlen
    by_cases hc : s.sliceUpdates < bound
    · simp only [sgd_march_loopAux, if_pos hc]
      have h1 : updatesLogInv g s.sched (sgd_march_body g step_size ups uEnd ms s).sched := by
        unfold sgd_march_body
        exact lem_moviesPass_inv hg step_size _ _ ms s.sched hms hlen
      have h2 := ih (sgd_march_body g step_size ups uEnd ms s) (by rw [h1.1]; exact hlen)
      exact lem_inv_trans h1 h2
    · simp only [sgd_march_loopAux, if_neg hc]
      exact lem_inv_refl g s.sched

theorem lem_march_worker_inv {g : SGraph} (hg : Bip g) (step_size : ℚ)
    (ups W k : ℕ) (hkW : k < W) (st : SchedState)
    (hlen : g.numMovies ≤ st.nodes.length) :
    updatesLogInv g st (sgd_march_worker g step_size ups W k st).sched := by
  unfold sgd_march_worker sgd_march_loop
  refine lem_march_loopAux_inv hg step_size ups _ (fun m' hm' => ?_) _ _ _ hlen
  have h1 := lem_mem_movieRangeList hm'
  have h2 : (marchWorkItem g W ups k).movieRangeEnd ≤ g.numMovies := by
    unfold marchWorkItem
    exact lem_rangeEnd_le g hkW
  omega

theorem lem_consumeEdgeNC_updates (step_size : ℚ) (m dst rating : ℕ)
    (st : SchedState) (i : ℕ) :
    (getNode (consumeEdgeNoCount step_size m dst rating st) i).updates =
      (getNode st i).updates := by
  by_cases hid : i = dst
  · subst hid
    simp only [consumeEdgeNoCount, getNode]
    by_cases hl : i < st.nodes.length
    · rw [lem_getD_set_self _ _ _ (by simpa using hl)]
      rfl
    · rw [List.set_eq_of_length_le (by simpa using Nat.le_of_not_lt hl)]
      by_cases him : i = m
      · subst him
        rw [List.set_eq_of_length_le (Nat.le_of_not_lt hl)]
      · rw [lem_getD_set_ne _ _ _ (Ne.symm him)]
  · by_cases him : i = m
    · subst him
      simp only [consumeEdgeNoCount, getNode]
      rw [lem_getD_set_ne _ _ _ (fun h => hid h.symm)]
      by_cases hl : i < st.nodes.length
      · rw [lem_getD_set_self _ _ _ hl]
        rfl
      · rw [List.set_eq_of_length_le (Nat.le_of_not_lt hl)]
    · simp only [consumeEdgeNoCount, getNode]
      rw [lem_getD_set_ne _ _ _ (fun h => hid h.symm),
        lem_getD_set_ne _ _ _ (fun h => him h.symm)]

theorem lem_nm_item_updates (g : SGraph) (step_size : ℚ) (m : ℕ) :
    ∀ (st : SchedState) (i : ℕ),
      (getNode (sgd_node_movie_item g step_size m st) i).updates =
        (getNode st i).updates := by
  unfold sgd_node_movie_item
  generalize adjOf g m = es
  induction es with
  | nil => intro st i; rfl
  | cons e rest ih =>
    intro st i
    simp only [List.foldl_cons]
    rw [ih _ i, lem_consumeEdgeNC_updates step_size m e.1 e.2 st i]

theorem lem_nm_round_updates (g : SGraph) (step_size : ℚ) :
    ∀ (st : SchedState) (i : ℕ),
      (getNode (sgd_node_movie_round g step_size st) i).updates =
        (getNode st i).updates := by
  unfold sgd_node_movie_round
  generalize moviesWithEdges g = ms
  induction ms with
  | nil => intro st i; rfl
  | cons a rest ih =>
    intro st i
    simp only [List.foldl_cons]
    rw [ih _ i, lem_nm_item_updates g step_size a st i]

theorem lem_nm_go_updates (g : SGraph) (lf : ℕ → ℚ) :
    ∀ (st : SchedState) (i : ℕ),
      (getNode (sgd_node_movie_go g lf st) i).updates = (getNode st i).updates := by
  unfold sgd_node_movie_go
  generalize List.range 10 = rs
  induction rs with
  | nil => intro st i; rfl
  | cons r rest ih =>
    intro st i
    simp only [List.foldl_cons]
    rw [ih _ i, lem_nm_round_updates g (lf r) st i]

theorem lem_offset_write_updates (st : SchedState) (m x i : ℕ) :
    (getNode (setNode st m { getNode st m with edge_offset := x }) i).updates =
      (getNode st i).updates := by
  by_cases him : i = m
  · subst him
    unfold setNode getNode
    by_cases hl : i < st.nodes.length
    · rw [lem_getD_set_self _ _ _ hl]
    · rw [List.set_eq_of_length_le (Nat.le_of_not_lt hl)]
  · rw [lem_getNode_setNode_ne st _ (Ne.symm him)]

theorem lem_bumpOffset_updates (m : ℕ) (st : SchedState) (i : ℕ) :
    (getNode (bumpOffset m st) i).updates = (getNode st i).updates :=
  lem_offset_write_updates st m _ i

theorem lem_resetOffset_updates (m : ℕ) (st : SchedState) (i : ℕ) :
    (getNode (resetOffset m st) i).updates = (getNode st i).updates :=
  lem_offset_write_updates st m 0 i

theorem lem_em_item_updates (g : SGraph) (step_size : ℚ) (m : ℕ) (st : SchedState)
    (i : ℕ) :
    (getNode (sgd_edge_movie_item g step_size m st).1 i).updates =
      (getNode st i).updates := by
  simp only [sgd_edge_movie_item]
  split
  · rfl
  · split
    · rw [lem_resetOffset_updates, lem_bumpOffset_updates, lem_consumeEdgeNC_updates]
    · rw [lem_bumpOffset_updates, lem_consumeEdgeNC_updates]

theorem lem_em_run_updates (g : SGraph) (step_size : ℚ) :
    ∀ (sched : List ℕ) (st : SchedState) (i : ℕ),
      (getNode (sgd_edge_movie_run g step_size sched st) i).updates =
        (getNode st i).updates := by
  intro sched
  induction sched with
  | nil => intro st i; rfl
  | cons a rest ih =>
    intro st i
    simp only [sgd_edge_movie_run, List.foldl_cons]
    have h1 := ih (sgd_edge_movie_item g step_size a st).1 i
    simp only [sgd_edge_movie_run] at h1
    rw [h1, lem_em_item_updates g step_size a st i]

/-- C6 amended: the claim holds for the grid and march schedulers but not for
the naive ones.  Every sub-step of the block, blockAndSliceUsers and
blockAndSliceBoth variants, the whole run of the block variant, and every
sliceMarch worker loop maintain the updates-log invariant: each movie node's
updates field grows by exactly the number of gradient updates applied with
that node as the movie argument, and the updates field of user nodes never
changes - so starting from a fresh state (empty log, all counters 0), each
movie's updates equals the total number of gradient updates applied to it as
movie, and user-only nodes stay at 0.  The nodeMovie and edgeMovie
schedulers, however, apply their gradient updates without ever incrementing
any updates field - for edgeMovie under every worklist interleaving of its
work units - so after a run of either naive variant every updates field still
has its initial value. -/
theorem C6_updates_amended :
    (∀ (g : SGraph) (step_size : ℚ) (wi : ThreadWorkItem) (st : SchedState),
        Bip g → g.numMovies ≤ st.nodes.length → wi.movieRangeEnd ≤ g.numMovies →
        updatesLogInv g st (sgd_block_item g step_size wi st) ∧
        updatesLogInv g st (sgd_block_users_item g step_size wi st) ∧
        updatesLogInv g st (sgd_block_users_movies_item g step_size wi st)) ∧
    (∀ (g : SGraph) (W ups mps : ℕ) (lf : ℕ → ℚ) (st : SchedState),
        Bip g → g.numMovies ≤ st.nodes.length →
        updatesLogInv g st (runBlockSlicesBlock g W ups mps lf st).2 ∧
        (st.glog = [] → (∀ m, m < g.numMovies → (getNode st m).updates = 0) →
          ∀ m, m < g.numMovies →
            (getNode (runBlockSlicesBlock g W ups mps lf st).2 m).updates =
              movieCount (runBlockSlicesBlock g W ups mps lf st).2.glog m)) ∧
    (∀ (g : SGraph) (step_size : ℚ) (ups W k : ℕ) (st : SchedState),
        Bip g → g.numMovies ≤ st.nodes.length → k < W →
        updatesLogInv g st (sgd_march_worker g step_size ups W k st).sched) ∧
    (∀ (g : SGraph) (lf : ℕ → ℚ) (st : SchedState) (i : ℕ),
        (getNode (sgd_node_movie_go g lf st) i).updates = (getNode st i).updates) ∧
    (∀ (g : SGraph) (step_size : ℚ) (sched : List ℕ) (st : SchedState) (i : ℕ),
        (getNode (sgd_edge_movie_run g step_size sched st) i).updates =
          (getNode st i).updates) := by
  refine ⟨?_, ?_, ?_, lem_nm_go_updates, lem_em_run_updates⟩
  · intro g step_size wi st hg hlen hme
    exact ⟨lem_block_item_inv hg step_size wi st hlen hme,
      lem_block_users_item_inv hg step_size wi st hlen hme,
      lem_block_users_movies_item_inv hg step_size wi st hlen hme⟩
  · intro g W ups mps lf st hg hlen
    have hinv := lem_runBlock_inv hg W ups mps lf st hlen
    refine ⟨hinv, fun hlog h0 m hm => ?_⟩
    have h := hinv.2.1 m hm
    rw [hlog] at h
    have hz : movieCount ([] : List (ℕ × ℕ)) m = 0 := rfl
    rw [hz, h0 m hm] at h
    omega
  · intro g step_size ups W k st hg hlen hkW
    exact lem_march_worker_inv hg step_size ups W k hkW st hlen

/-- C6 amended witness: the invariant instantiated on the bgG block run and
the nodeMovie and edgeMovie clauses on nmG. -/
theorem C6_updates_amended_witness :
    updatesLogInv bgG bgSt0 (runBlockSlicesBlock bgG 1 2048 512 (fun _ => 1) bgSt0).2 ∧
    (getNode (sgd_node_movie_go nmG (fun _ => 1) nmSt0) 0).updates =
      (getNode nmSt0 0).updates ∧
    (getNode (sgd_edge_movie_run nmG 1 [0, 0, 0] nmSt0) 0).updates =
      (getNode nmSt0 0).updates :=
  ⟨(C6_updates_amended.2.1 bgG 1 2048 512 (fun _ => 1) bgSt0 (by decide) (by decide)).1,
    C6_updates_amended.2.2.2.1 nmG (fun _ => 1) nmSt0 0,
    C6_updates_amended.2.2.2.2 nmG 1 [0, 0, 0] nmSt0 0⟩

end SgdAlamere
